import Mathlib

/-!
Verification development for the scikit-maad ROI-extraction core
(`maad/rois/rois_2d.py`): double-threshold (hysteresis) binarization,
connected-component labeling and filtering, region tables, and blob
rasterization.

Images are embedded as rational-valued functions on `ℕ × ℕ` with explicit
height/width; connected components (skimage `measure.label`, 8-connectivity)
are computed by an iterated neighbourhood-closure that is proved to coincide
with reflexive-transitive reachability through foreground pixels.
-/

namespace Maad

abbrev Pos := ℕ × ℕ

/-- 8-neighbourhood adjacency (Chebyshev distance ≤ 1, distinct pixels).
This is skimage's default full connectivity for 2-D `measure.label`. -/
def adjB (p q : Pos) : Bool :=
  decide (p ≠ q) && decide (p.1 ≤ q.1 + 1) && decide (q.1 ≤ p.1 + 1) &&
    decide (p.2 ≤ q.2 + 1) && decide (q.2 ≤ p.2 + 1)

/-- All pixel positions of an `H × W` array, in row-major (C) order. -/
def allPos (H W : ℕ) : List Pos :=
  (List.range H).flatMap (fun y => (List.range W).map (fun x => (y, x)))

/-- One step of connectivity: from pixel `a` to an adjacent foreground pixel `b`. -/
def Step (fg : Pos → Bool) (a b : Pos) : Prop :=
  adjB a b = true ∧ fg b = true

/-- Reachability through foreground pixels: `p` and `q` are in the same
connected component of the mask `fg`. -/
def Reach (fg : Pos → Bool) : Pos → Pos → Prop :=
  Relation.ReflTransGen (Step fg)

/-- One round of component growth: add every domain pixel that is foreground,
new, and adjacent to the current set. -/
def grow (fg : Pos → Bool) (dom : List Pos) (s : List Pos) : List Pos :=
  s ++ dom.filter (fun q => fg q && !(decide (q ∈ s)) && s.any (fun r => adjB r q))

/-- The connected component of `p` (as an unordered pixel collection),
computed by iterating `grow` until the finite domain forces a fixpoint. -/
def compO (fg : Pos → Bool) (dom : List Pos) (p : Pos) : List Pos :=
  (grow fg dom)^[dom.length + 1] [p]

/-- The connected component of `p`, listed in domain (row-major) order. -/
def compL (fg : Pos → Bool) (dom : List Pos) (p : Pos) : List Pos :=
  dom.filter (fun q => decide (q ∈ compO fg dom p))

/-- `p` is the representative (first pixel in row-major order) of its component. -/
def isRoot (fg : Pos → Bool) (dom : List Pos) (p : Pos) : Bool :=
  fg p && decide ((compL fg dom p).head? = some p)

/-- The connected components of mask `fg`, one per representative, in the
order `measure.label` assigns labels (raster order of first pixels). -/
def components (fg : Pos → Bool) (dom : List Pos) : List (List Pos) :=
  (dom.filter (isRoot fg dom)).map (compL fg dom)

/-- Minimum of a list of naturals (0 for the empty list; only used nonempty). -/
def listMin : List ℕ → ℕ
  | [] => 0
  | [x] => x
  | x :: y :: xs => min x (listMin (y :: xs))

/-- Maximum of a list of naturals (0 for the empty list; only used nonempty). -/
def listMax : List ℕ → ℕ
  | [] => 0
  | [x] => x
  | x :: y :: xs => max x (listMax (y :: xs))

/-- A 2-D numeric matrix (`im : 2d ndarray of scalars`): height, width and a
rational value at each pixel. -/
structure Img where
  H : ℕ
  W : ℕ
  val : Pos → ℚ

/-- Restrict a mask function to the pixels of an `H × W` array: an ndarray has
no out-of-bounds entries. -/
def bnd (H W : ℕ) (m : Pos → Bool) : Pos → Bool :=
  fun p => decide (p.1 < H ∧ p.2 < W) && m p

/-- `im_t2 = im > l_th`: the extended (low-threshold) mask, lines 147/286. -/
def fgLow (im : Img) (l : ℚ) : Pos → Bool :=
  bnd im.H im.W (fun p => decide (l < im.val p))

/-- `im_t3 = im * im_t1`: the matrix restricted to seed pixels (`im > h`),
zero elsewhere, lines 148/287. -/
def seedVal (im : Img) (h : ℚ) (p : Pos) : ℚ :=
  if h < im.val p then im.val p else 0

/-- `mean_intensity` of a labeled region under the intensity image `im_t3`:
mean of `seedVal` over the component's pixels. -/
def compMean (im : Img) (h : ℚ) (c : List Pos) : ℚ :=
  (c.map (seedVal im h)).sum / (c.length : ℚ)

/-- Components of the low mask whose `mean_intensity > 0`, i.e. the regions
retained by `np.where(rprops_mean_intensity>0)`, lines 160/299. -/
def keptComps (im : Img) (h l : ℚ) : List (List Pos) :=
  (components (fgLow im l) (allPos im.H im.W)).filter
    (fun c => decide (0 < compMean im h c))

/-- `_double_threshold_abs` (lines 284-302): binarize with absolute double
threshold; a pixel is set iff its low-mask component contains seed mass of
positive mean. -/
def doubleThresholdAbs (im : Img) (bin_h bin_l : ℚ) : Pos → Bool :=
  fun p => (keptComps im bin_h bin_l).any (fun c => decide (p ∈ c))

/-- `np.percentile(l, q)` with the default linear interpolation on the sorted
data; `none` on an empty list (numpy raises there). -/
def percentileQ (l : List ℚ) (q : ℚ) : Option ℚ :=
  let s := l.insertionSort (· ≤ ·)
  let rank : ℚ := q / 100 * ((l.length : ℚ) - 1)
  let i : ℕ := (Int.floor rank).toNat
  let frac : ℚ := rank - ((Int.floor rank : ℤ) : ℚ)
  match s.get? i with
  | none => none
  | some a =>
    match s.get? (i + 1) with
    | none => some a
    | some b => some (a + frac * (b - a))

/-- `im[np.where(im>0)]`: the strictly positive entries in row-major order. -/
def positivesOf (im : Img) : List ℚ :=
  ((allPos im.H im.W).map im.val).filter (fun v => decide (0 < v))

/-- The relative-mode threshold computation of `_double_threshold_rel`
(lines 126-136): `h_th = percentile(pos,75) + iqr(pos)*bin_std` and
`l_th = h_th - h_th*bin_per`; `none` when there are no positive entries
(numpy/scipy raise on the empty selection). -/
def relThresholds (im : Img) (bin_std bin_per : ℚ) : Option (ℚ × ℚ) :=
  match percentileQ (positivesOf im) 75, percentileQ (positivesOf im) 25 with
  | some p75, some p25 =>
    let h := p75 + (p75 - p25) * bin_std
    some (h, h - h * bin_per)
  | _, _ => none

/-- `im.any()`: true iff some entry is nonzero (negative entries count). -/
def anyNonzero (im : Img) : Bool :=
  (allPos im.H im.W).any (fun p => decide (im.val p ≠ 0))

/-- `_double_threshold_rel` (lines 120-163): all-zero images short-circuit to
the all-zero mask; otherwise thresholds are estimated from the positive
entries and the hysteresis core runs; `none` models the numpy error on
images with nonzero but no positive entries. -/
def doubleThresholdRel (im : Img) (bin_std bin_per : ℚ) : Option (Pos → Bool) :=
  if anyNonzero im then
    match relThresholds im bin_std bin_per with
    | some hl => some (doubleThresholdAbs im hl.1 hl.2)
    | none => none
  else
    some (fun _ => false)

/-- `create_mask` (lines 419-431): mode dispatch; omitted keyword arguments
are `none` and take the popped defaults (`bin_std` 6, `bin_per` 0.5,
`bin_h` 0.7, `bin_l` 0.3); an unrecognized mode leaves `im_bin` unbound
(modelled as `none`). -/
def createMask (im : Img) (mode_bin : String)
    (bin_std bin_per bin_h bin_l : Option ℚ) : Option (Pos → Bool) :=
  if mode_bin = "relative" then
    doubleThresholdRel im (bin_std.getD 6) (bin_per.getD (1 / 2))
  else if mode_bin = "absolute" then
    some (doubleThresholdAbs im (bin_h.getD (7 / 10)) (bin_l.getD (3 / 10)))
  else
    none

/-- One row of the ROI table at data level: label id, taxonomy label, and the
inclusive bounding box. -/
structure RoiData where
  labelID : ℕ
  label : String
  min_y : ℕ
  min_x : ℕ
  max_y : ℕ
  max_x : ℕ
deriving DecidableEq, Repr

/-- Row built from a labeled component: skimage `regionprops` reports the
half-open bbox `(min_row, min_col, max_row, max_col)`; `select_rois`
subtracts 1 from both maxima (lines 610-611) to make them inclusive. -/
def mkRoi (k : ℕ) (c : List Pos) : RoiData :=
  { labelID := k
    label := "unknown"
    min_y := listMin (c.map Prod.fst)
    min_x := listMin (c.map Prod.snd)
    max_y := (listMax (c.map Prod.fst) + 1) - 1
    max_x := (listMax (c.map Prod.snd) + 1) - 1 }

/-- Area window test of `select_rois` (line 590):
`(roi.area >= min_roi) & (roi.area <= max_roi)`. -/
def areaOK (min_roi max_roi : ℕ) (c : List Pos) : Bool :=
  decide (min_roi ≤ c.length) && decide (c.length ≤ max_roi)

/-- The ROI table of `select_rois` (lines 581-611) at data level: one row per
component whose pixel area lies in `[min_roi, max_roi]`; `labelID` is the
component's label (position in label order, starting at 1). -/
def selectRoisData (m : Pos → Bool) (H W : ℕ) (min_roi max_roi : ℕ) :
    List RoiData :=
  (components (bnd H W m) (allPos H W)).enum.filterMap
    (fun ic =>
      if areaOK min_roi max_roi ic.2 then some (mkRoi (ic.1 + 1) ic.2) else none)

/-- `measure.label` as an image: the 1-based label of the component containing
`p`, 0 on background. -/
def labelsImg (fg : Pos → Bool) (dom : List Pos) (p : Pos) : ℕ :=
  match (components fg dom).findIdx? (fun c => decide (p ∈ c)) with
  | some i => i + 1
  | none => 0

/-- The label ids retained by the area filter (column `labelID`). -/
def keptLabelIDs (m : Pos → Bool) (H W min_roi max_roi : ℕ) : List ℕ :=
  (selectRoisData m H W min_roi max_roi).map (fun r => r.labelID)

/-- `im_rois = np.isin(labels, rois_label) * labels` (lines 596-597): the
labeled image restricted to retained components. -/
def imRoisImg (m : Pos → Bool) (H W min_roi max_roi : ℕ) : Pos → ℕ :=
  fun p =>
    let lab := labelsImg (bnd H W m) (allPos H W) p
    if (keptLabelIDs m H W min_roi max_roi).contains lab then lab else 0

/-- Turn an integer image into the 0/1 mask of its nonzero pixels. -/
def maskOfImg (f : Pos → ℕ) : Pos → Bool :=
  fun p => decide (f p ≠ 0)

/-- A pandas cell value: integer or string dtype. -/
inductive CellV where
  | intV (n : ℤ)
  | strV (s : String)
deriving DecidableEq, Repr

/-- One row of the DataFrame returned by `select_rois`, cell by cell. -/
structure RoiRow where
  labelID : CellV
  label : CellV
  min_y : CellV
  min_x : CellV
  max_y : CellV
  max_x : CellV
deriving DecidableEq, Repr

/-- The DataFrame construction of `select_rois` (lines 605-608):
`np.concatenate((np.asarray(rois_label), np.asarray(rois_bbox)), axis=1)`
promotes every cell of the mixed (int, str) data to a string, then
`astype({'label': str, 'min_y': int, 'min_x': int, 'max_y': int, 'max_x': int})`
parses the four bbox columns back to integers (exact on decimal strings,
modelled as the identity on the numeric value) and keeps `label` a string —
but `labelID` is absent from the cast and stays a string cell. -/
def toCellRow (r : RoiData) : RoiRow :=
  { labelID := CellV.strV (toString r.labelID)
    label := CellV.strV r.label
    min_y := CellV.intV r.min_y
    min_x := CellV.intV r.min_x
    max_y := CellV.intV r.max_y
    max_x := CellV.intV r.max_x }

/-- The ROI DataFrame of `select_rois`, cell-typed. -/
def selectRoisTable (m : Pos → Bool) (H W min_roi max_roi : ℕ) : List RoiRow :=
  (selectRoisData m H W min_roi max_roi).map toCellRow

/-- The four bounding-box columns of a row. -/
def bboxOf (r : RoiData) : ℕ × ℕ × ℕ × ℕ :=
  (r.min_y, r.min_x, r.max_y, r.max_x)

/-- A row with its `labelID` column dropped. -/
def dropID (r : RoiData) : String × ℕ × ℕ × ℕ × ℕ :=
  (r.label, r.min_y, r.min_x, r.max_y, r.max_x)

/-- Membership of a pixel in a row's inclusive bounding box. -/
def coversB (r : RoiData) (p : Pos) : Bool :=
  decide (r.min_y ≤ p.1 ∧ p.1 ≤ r.max_y ∧ r.min_x ≤ p.2 ∧ p.2 ≤ r.max_x)

/-- One slice assignment
`im_blobs[int(min_y):int(max_y+1), int(min_x):int(max_x+1)] = 1` of
`rois_to_imblobs` (line 863); numpy slices clamp to the array bounds. -/
def paintOne (H W : ℕ) (buf : Pos → ℕ) (r : RoiData) : Pos → ℕ :=
  fun p => if p.1 < H ∧ p.2 < W ∧ coversB r p = true then 1 else buf p

/-- `rois_to_imblobs` (lines 859-867) with the canvas buffer made explicit:
the loop paints each row's box into the caller's array in place, then
`astype(int)` allocates the returned copy. The first component is the final
contents of the array that was passed in, the second the returned array. -/
def roisToImblobs (H W : ℕ) (buf : Pos → ℕ) (rois : List RoiData) :
    (Pos → ℕ) × (Pos → ℕ) :=
  let final := rois.foldl (paintOne H W) buf
  (final, fun p => final p)

/-- Python's `and` on strings: falsy (empty) left operand short-circuits,
otherwise the right operand is returned. -/
def pyAndStr (a b : String) : String :=
  if a = "" then a else b

/-- The column guard of `rois_to_imblobs` (line 856):
`('min_y' and 'min_x' and 'max_y' and 'max_x') in rois`, where the chained
`and` of nonempty string literals evaluates to its last operand. The guard
returning `false` means the `TypeError` is raised. -/
def imblobsGuard (cols : List String) : Bool :=
  decide (pyAndStr (pyAndStr (pyAndStr "min_y" "min_x") "max_y") "max_x" ∈ cols)

/-- Two boxes separated by at least 2 pixels along some axis: no pixel of one
is equal or 8-adjacent to a pixel of the other. -/
def sepRoi (r s : RoiData) : Prop :=
  r.max_y + 2 ≤ s.min_y ∨ s.max_y + 2 ≤ r.min_y ∨
    r.max_x + 2 ≤ s.min_x ∨ s.max_x + 2 ≤ r.min_x

/-- The pixels of a row's inclusive bounding box, in row-major order. -/
def boxPixels (H W : ℕ) (r : RoiData) : List Pos :=
  (allPos H W).filter (coversB r)

/-- One unit move of a coordinate towards a target (used to build connecting
paths inside a rectangle). -/
def stepToward (a b : ℕ) : ℕ :=
  if a < b then a + 1 else if b < a then a - 1 else a

/-! ### Concrete instances used by counterexamples and witnesses -/

/-- The 1×1 all-zero image. -/
def imZero11 : Img := ⟨1, 1, fun _ => 0⟩

/-- A 1×1 image whose single entry is −1 (nonzero but not positive). -/
def imNeg11 : Img := ⟨1, 1, fun _ => -1⟩

/-- A 1×1 image whose single entry is 1. -/
def imOne11 : Img := ⟨1, 1, fun _ => 1⟩

/-- The 1×2 image `[[0.8, 0.25]]`: a strong seed next to a weak pixel. -/
def imAbs12 : Img := ⟨1, 2, fun p => if p = (0, 1) then 1 / 4 else 4 / 5⟩

/-- The 2×4 mask `[[1,0,0,1],[0,0,0,1]]`: a 1-pixel component (label 1)
and a 2-pixel component (label 2). -/
def maskTwoComp : Pos → Bool :=
  fun p => decide (p = (0, 0) ∨ p = (0, 3) ∨ p = (1, 3))

/-- A region table of two diagonally adjacent 1×1 boxes on a 2×2 canvas. -/
def rowsDiag : List RoiData :=
  [⟨1, "unknown", 0, 0, 0, 0⟩, ⟨2, "unknown", 1, 1, 1, 1⟩]

/-- A region table holding the single 1×1 box at the origin. -/
def rowsUnit : List RoiData := [⟨1, "unknown", 0, 0, 0, 0⟩]

/-- The all-zero integer canvas. -/
def zeroCanvas : Pos → ℕ := fun _ => 0

/-! ### Basic facts about positions, adjacency and the domain list -/

theorem mem_allPos {H W : ℕ} {p : Pos} :
    p ∈ allPos H W ↔ p.1 < H ∧ p.2 < W := by
  obtain ⟨y, x⟩ := p
  simp only [allPos, List.mem_flatMap, List.mem_map, List.mem_range]
  constructor
  · rintro ⟨a, ha, b, hb, hab⟩
    obtain ⟨rfl, rfl⟩ := Prod.mk.injEq .. ▸ hab
    exact ⟨ha, hb⟩
  · rintro ⟨hy, hx⟩
    exact ⟨y, hy, x, hx, rfl⟩

theorem nodup_allPos (H W : ℕ) : (allPos H W).Nodup := by
  unfold allPos
  refine List.nodup_flatMap.mpr ⟨?_, ?_⟩
  · intro y _
    refine (List.nodup_range W).map ?_
    intro a b h
    exact (Prod.mk.injEq .. ▸ h).2
  · refine List.Pairwise.imp ?_ (List.pairwise_lt_range H)
    intro a b hab
    rw [Function.onFun, List.disjoint_left]
    intro x hxa hxb
    obtain ⟨xa, _, rfl⟩ := List.mem_map.mp hxa
    obtain ⟨xb, _, h⟩ := List.mem_map.mp hxb
    exact absurd ((Prod.mk.injEq .. ▸ h).1) (Nat.ne_of_gt hab)

theorem length_allPos (H W : ℕ) : (allPos H W).length = H * W := by
  induction H with
  | zero => simp [allPos]
  | succ n ih =>
    unfold allPos at ih ⊢
    rw [List.range_succ, List.flatMap_append, List.length_append, ih]
    simp [Nat.succ_mul]

theorem adjB_iff {p q : Pos} :
    adjB p q = true ↔
      p ≠ q ∧ p.1 ≤ q.1 + 1 ∧ q.1 ≤ p.1 + 1 ∧ p.2 ≤ q.2 + 1 ∧ q.2 ≤ p.2 + 1 := by
  simp [adjB, and_assoc]

theorem adjB_symm {p q : Pos} (h : adjB p q = true) : adjB q p = true := by
  rw [adjB_iff] at h ⊢
  exact ⟨h.1.symm, h.2.2.1, h.2.1, h.2.2.2.2, h.2.2.2.1⟩

/-! ### The closure computation `compO` computes reachability -/

theorem subset_grow (fg : Pos → Bool) (dom s : List Pos) : s ⊆ grow fg dom s :=
  fun _ ha => List.mem_append_left _ ha

theorem mem_grow {fg : Pos → Bool} {dom s : List Pos} {q : Pos} :
    q ∈ grow fg dom s ↔
      q ∈ s ∨ (q ∈ dom ∧ fg q = true ∧ q ∉ s ∧ ∃ r ∈ s, adjB r q = true) := by
  simp [grow, List.mem_filter, List.any_eq_true, and_assoc]

theorem nodup_grow {fg : Pos → Bool} {dom s : List Pos}
    (hd : dom.Nodup) (hs : s.Nodup) : (grow fg dom s).Nodup := by
  refine hs.append (hd.filter _) ?_
  intro a ha hb
  have := (List.mem_filter.mp hb).2
  simp only [Bool.and_eq_true, Bool.not_eq_true', decide_eq_false_iff_not] at this
  exact this.1.2 ha

theorem grow_subset {fg : Pos → Bool} {dom s t : List Pos}
    (hs : s ⊆ t) (hd : dom ⊆ t) : grow fg dom s ⊆ t := by
  intro a ha
  rcases List.mem_append.mp ha with h | h
  · exact hs h
  · exact hd (List.mem_filter.mp h).1

theorem iter_self_mem (fg : Pos → Bool) (dom : List Pos) (p : Pos) (n : ℕ) :
    p ∈ (grow fg dom)^[n] [p] := by
  induction n with
  | zero => simp
  | succ k ih =>
    rw [Function.iterate_succ_apply']
    exact subset_grow fg dom _ ih

theorem iter_nodup (fg : Pos → Bool) {dom : List Pos} (hd : dom.Nodup)
    (p : Pos) (n : ℕ) : ((grow fg dom)^[n] [p]).Nodup := by
  induction n with
  | zero => simp
  | succ k ih =>
    rw [Function.iterate_succ_apply']
    exact nodup_grow hd ih

theorem iter_subset (fg : Pos → Bool) (dom : List Pos) (p : Pos) (n : ℕ) :
    (grow fg dom)^[n] [p] ⊆ p :: dom := by
  induction n with
  | zero =>
    intro a ha
    simp only [Function.iterate_zero_apply, List.mem_singleton] at ha
    simp [ha]
  | succ k ih =>
    rw [Function.iterate_succ_apply']
    exact grow_subset ih (List.subset_cons_self p dom)

theorem grow_length_lt {fg : Pos → Bool} {dom s : List Pos}
    (h : grow fg dom s ≠ s) : s.length < (grow fg dom s).length := by
  unfold grow at h ⊢
  rcases List.eq_nil_or_concat'
      (dom.filter (fun q => fg q && !(decide (q ∈ s)) && s.any (fun r => adjB r q)))
    with he | ⟨l, a, he⟩
  · rw [he] at h
    simp at h
  · rw [he, List.length_append]
    simp

theorem compO_fix {fg : Pos → Bool} {dom : List Pos} (hd : dom.Nodup) (p : Pos) :
    grow fg dom (compO fg dom p) = compO fg dom p := by
  by_cases hfix : ∃ k ≤ dom.length + 1, (grow fg dom)^[k + 1] [p] = (grow fg dom)^[k] [p]
  · obtain ⟨k, hk, hfx⟩ := hfix
    have hstable : ∀ m : ℕ, (grow fg dom)^[k + m] [p] = (grow fg dom)^[k] [p] := by
      intro m
      induction m with
      | zero => rfl
      | succ j ih =>
        have heq : k + (j + 1) = (k + j) + 1 := by omega
        rw [heq, Function.iterate_succ_apply', ih]
        exact (Function.iterate_succ_apply' (grow fg dom) k [p]).symm.trans hfx
    have h1 : compO fg dom p = (grow fg dom)^[k] [p] := by
      unfold compO
      have heq : dom.length + 1 = k + (dom.length + 1 - k) := by omega
      rw [heq, hstable]
    rw [h1]
    exact (Function.iterate_succ_apply' (grow fg dom) k [p]).symm.trans hfx
  · exfalso
    push_neg at hfix
    have hgrows : ∀ k ≤ dom.length + 1, k + 1 ≤ ((grow fg dom)^[k] [p]).length := by
      intro k hk
      induction k with
      | zero => simp
      | succ j ih =>
        have hj : j ≤ dom.length + 1 := by omega
        have hne := hfix j hj
        rw [Function.iterate_succ_apply'] at hne
        have hlt := grow_length_lt hne
        have hlen := ih hj
        rw [Function.iterate_succ_apply']
        omega
    have hle : ((grow fg dom)^[dom.length + 1] [p]).length ≤ dom.length + 1 := by
      have hsub := iter_subset fg dom p (dom.length + 1)
      have hnd := iter_nodup fg hd p (dom.length + 1)
      have := (List.subperm_of_subset hnd hsub).length_le
      simpa using this
    have := hgrows (dom.length + 1) le_rfl
    omega

theorem reach_of_mem_iter {fg : Pos → Bool} {dom : List Pos} {p q : Pos} {n : ℕ}
    (h : q ∈ (grow fg dom)^[n] [p]) : Reach fg p q := by
  induction n generalizing q with
  | zero =>
    simp only [Function.iterate_zero_apply, List.mem_singleton] at h
    exact h ▸ Relation.ReflTransGen.refl
  | succ k ih =>
    rw [Function.iterate_succ_apply'] at h
    rcases mem_grow.mp h with h' | ⟨_, hq, _, r, hr, hadj⟩
    · exact ih h'
    · exact Relation.ReflTransGen.tail (ih hr) ⟨hadj, hq⟩

theorem reach_of_mem_compO {fg : Pos → Bool} {dom : List Pos} {p q : Pos}
    (h : q ∈ compO fg dom p) : Reach fg p q :=
  reach_of_mem_iter h

theorem mem_compO_of_reach {fg : Pos → Bool} {dom : List Pos}
    (hdom : ∀ r, fg r = true → r ∈ dom) (hd : dom.Nodup) {p q : Pos}
    (h : Reach fg p q) : q ∈ compO fg dom p := by
  induction h with
  | refl => exact iter_self_mem fg dom p _
  | @tail r q hpr hstep ih =>
    rw [← compO_fix hd p]
    by_cases hq : q ∈ compO fg dom p
    · exact subset_grow fg dom _ hq
    · exact mem_grow.mpr (Or.inr ⟨hdom q hstep.2, hstep.2, hq, r, ih, hstep.1⟩)

theorem mem_compO_iff {fg : Pos → Bool} {dom : List Pos}
    (hdom : ∀ r, fg r = true → r ∈ dom) (hd : dom.Nodup) {p q : Pos} :
    q ∈ compO fg dom p ↔ Reach fg p q :=
  ⟨reach_of_mem_compO, mem_compO_of_reach hdom hd⟩

/-! ### Reachability is an equivalence on foreground pixels -/

theorem reach_fg {fg : Pos → Bool} {p q : Pos} (h : Reach fg p q) :
    q = p ∨ fg q = true := by
  induction h with
  | refl => exact Or.inl rfl
  | tail _ hstep _ => exact Or.inr hstep.2

theorem reach_fg_of_fg {fg : Pos → Bool} {p q : Pos} (hp : fg p = true)
    (h : Reach fg p q) : fg q = true := by
  rcases reach_fg h with rfl | h'
  · exact hp
  · exact h'

theorem reach_symm {fg : Pos → Bool} {p q : Pos} (hp : fg p = true)
    (h : Reach fg p q) : Reach fg q p := by
  induction h with
  | refl => exact Relation.ReflTransGen.refl
  | @tail r q hpr hstep ih =>
    have hr : fg r = true := reach_fg_of_fg hp hpr
    exact Relation.ReflTransGen.trans
      (Relation.ReflTransGen.single ⟨adjB_symm hstep.1, hr⟩) ih

theorem reach_mono {fg fg2 : Pos → Bool} (hsub : ∀ r, fg r = true → fg2 r = true)
    {p q : Pos} (h : Reach fg p q) : Reach fg2 p q := by
  induction h with
  | refl => exact Relation.ReflTransGen.refl
  | tail _ hstep ih =>
    exact Relation.ReflTransGen.tail ih ⟨hstep.1, hsub _ hstep.2⟩

/-! ### Components: ordered pixel lists, representatives, enumeration -/

theorem mem_compL {fg : Pos → Bool} {dom : List Pos}
    (hdom : ∀ r, fg r = true → r ∈ dom) (hd : dom.Nodup) {p q : Pos} :
    q ∈ compL fg dom p ↔ q ∈ dom ∧ Reach fg p q := by
  unfold compL
  rw [List.mem_filter, decide_eq_true_iff, mem_compO_iff hdom hd]

theorem nodup_compL (fg : Pos → Bool) {dom : List Pos} (hd : dom.Nodup)
    (p : Pos) : (compL fg dom p).Nodup :=
  hd.filter _

theorem compL_subset_dom (fg : Pos → Bool) (dom : List Pos) (p : Pos) :
    compL fg dom p ⊆ dom :=
  List.filter_subset' dom

theorem self_mem_compL {fg : Pos → Bool} {dom : List Pos}
    (hdom : ∀ r, fg r = true → r ∈ dom) (hd : dom.Nodup) {p : Pos}
    (hp : fg p = true) : p ∈ compL fg dom p :=
  (mem_compL hdom hd).mpr ⟨hdom p hp, Relation.ReflTransGen.refl⟩

theorem fg_of_mem_compL {fg : Pos → Bool} {dom : List Pos}
    (hdom : ∀ r, fg r = true → r ∈ dom) (hd : dom.Nodup) {p q : Pos}
    (hp : fg p = true) (hq : q ∈ compL fg dom p) : fg q = true :=
  reach_fg_of_fg hp ((mem_compL hdom hd).mp hq).2

theorem compL_congr {fg : Pos → Bool} {dom : List Pos}
    (hdom : ∀ r, fg r = true → r ∈ dom) (hd : dom.Nodup) {p q : Pos}
    (hp : fg p = true) (hpq : Reach fg p q) :
    compL fg dom q = compL fg dom p := by
  have hq : fg q = true := reach_fg_of_fg hp hpq
  unfold compL
  refine List.filter_congr ?_
  intro r _
  simp only [decide_eq_decide, mem_compO_iff hdom hd]
  constructor
  · intro h
    exact Relation.ReflTransGen.trans hpq h
  · intro h
    exact Relation.ReflTransGen.trans (reach_symm hp hpq) h

theorem mem_components_iff {fg : Pos → Bool} {dom : List Pos} {c : List Pos} :
    c ∈ components fg dom ↔
      ∃ r, r ∈ dom ∧ isRoot fg dom r = true ∧ c = compL fg dom r := by
  unfold components
  simp only [List.mem_map, List.mem_filter]
  constructor
  · rintro ⟨r, ⟨hr, hroot⟩, rfl⟩
    exact ⟨r, hr, hroot, rfl⟩
  · rintro ⟨r, hr, hroot, rfl⟩
    exact ⟨r, ⟨hr, hroot⟩, rfl⟩

theorem isRoot_iff {fg : Pos → Bool} {dom : List Pos} {p : Pos} :
    isRoot fg dom p = true ↔ fg p = true ∧ (compL fg dom p).head? = some p := by
  simp [isRoot]

theorem root_mem_self {fg : Pos → Bool} {dom : List Pos} {p : Pos}
    (h : isRoot fg dom p = true) : p ∈ compL fg dom p := by
  have hh := (isRoot_iff.mp h).2
  exact List.mem_of_mem_head? (Option.mem_def.mpr hh)

theorem components_ne_nil {fg : Pos → Bool} {dom : List Pos} {c : List Pos}
    (hc : c ∈ components fg dom) : c ≠ [] := by
  obtain ⟨r, _, hroot, rfl⟩ := mem_components_iff.mp hc
  intro h
  have := (isRoot_iff.mp hroot).2
  rw [h] at this
  exact Option.noConfusion this

theorem fg_of_mem_components {fg : Pos → Bool} {dom : List Pos}
    (hdom : ∀ r, fg r = true → r ∈ dom) (hd : dom.Nodup) {c : List Pos}
    {q : Pos} (hc : c ∈ components fg dom) (hq : q ∈ c) : fg q = true := by
  obtain ⟨r, _, hroot, rfl⟩ := mem_components_iff.mp hc
  exact fg_of_mem_compL hdom hd (isRoot_iff.mp hroot).1 hq

theorem comp_eq_compL {fg : Pos → Bool} {dom : List Pos}
    (hdom : ∀ r, fg r = true → r ∈ dom) (hd : dom.Nodup) {c : List Pos}
    {p : Pos} (hc : c ∈ components fg dom) (hp : p ∈ c) :
    c = compL fg dom p := by
  obtain ⟨r, _, hroot, rfl⟩ := mem_components_iff.mp hc
  have hr : fg r = true := (isRoot_iff.mp hroot).1
  exact (compL_congr hdom hd hr ((mem_compL hdom hd).mp hp).2).symm

theorem exists_mem_components {fg : Pos → Bool} {dom : List Pos}
    (hdom : ∀ r, fg r = true → r ∈ dom) (hd : dom.Nodup) {p : Pos}
    (hp : fg p = true) : ∃ c ∈ components fg dom, p ∈ c := by
  have hself := self_mem_compL hdom hd hp
  have hne : compL fg dom p ≠ [] := List.ne_nil_of_mem hself
  obtain ⟨r, hr⟩ := List.exists_mem_of_ne_nil _ hne
  have hrhead : (compL fg dom p).head? = some ((compL fg dom p).head hne) :=
    List.head?_eq_head hne
  set r0 := (compL fg dom p).head hne with hr0
  have hr0mem : r0 ∈ compL fg dom p := List.head_mem hne
  have hreach : Reach fg p r0 := ((mem_compL hdom hd).mp hr0mem).2
  have hfgr0 : fg r0 = true := reach_fg_of_fg hp hreach
  have hcomp_eq : compL fg dom r0 = compL fg dom p := compL_congr hdom hd hp hreach
  have hroot : isRoot fg dom r0 = true := by
    rw [isRoot_iff]
    refine ⟨hfgr0, ?_⟩
    rw [hcomp_eq, hrhead]
  refine ⟨compL fg dom r0, ?_, ?_⟩
  · exact mem_components_iff.mpr ⟨r0, hdom r0 hfgr0, hroot, rfl⟩
  · rw [hcomp_eq]
    exact hself

theorem components_unique {fg : Pos → Bool} {dom : List Pos}
    (hdom : ∀ r, fg r = true → r ∈ dom) (hd : dom.Nodup) {c c' : List Pos}
    {p : Pos} (hc : c ∈ components fg dom) (hc' : c' ∈ components fg dom)
    (hp : p ∈ c) (hp' : p ∈ c') : c = c' :=
  (comp_eq_compL hdom hd hc hp).trans (comp_eq_compL hdom hd hc' hp').symm

theorem nodup_components {fg : Pos → Bool} {dom : List Pos} (hd : dom.Nodup) :
    (components fg dom).Nodup := by
  unfold components
  refine (hd.filter _).map_on ?_
  intro a ha b hb hab
  have hroota := (List.mem_filter.mp ha).2
  have hrootb := (List.mem_filter.mp hb).2
  have h1 := (isRoot_iff.mp hroota).2
  have h2 := (isRoot_iff.mp hrootb).2
  rw [hab] at h1
  rw [h1] at h2
  exact Option.some.inj h2

/-! ### Minima and maxima of pixel-coordinate lists -/

theorem listMin_le {l : List ℕ} {x : ℕ} (hx : x ∈ l) : listMin l ≤ x := by
  induction l with
  | nil => cases hx
  | cons a t ih =>
    cases t with
    | nil =>
      simp only [List.mem_singleton] at hx
      simp [listMin, hx]
    | cons b u =>
      rw [List.mem_cons] at hx
      rcases hx with rfl | hx
      · exact min_le_left _ _
      · exact le_trans (min_le_right _ _) (ih hx)

theorem le_listMax {l : List ℕ} {x : ℕ} (hx : x ∈ l) : x ≤ listMax l := by
  induction l with
  | nil => cases hx
  | cons a t ih =>
    cases t with
    | nil =>
      simp only [List.mem_singleton] at hx
      simp [listMax, hx]
    | cons b u =>
      rw [List.mem_cons] at hx
      rcases hx with rfl | hx
      · exact le_max_left _ _
      · exact le_trans (ih hx) (le_max_right _ _)

theorem listMin_mem {l : List ℕ} (h : l ≠ []) : listMin l ∈ l := by
  induction l with
  | nil => exact absurd rfl h
  | cons a t ih =>
    cases t with
    | nil => simp [listMin]
    | cons b u =>
      rcases le_total a (listMin (b :: u)) with hle | hle
      · simp [listMin, min_eq_left hle]
      · have := ih (List.cons_ne_nil b u)
        right
        rwa [listMin, min_eq_right hle]

theorem listMax_mem {l : List ℕ} (h : l ≠ []) : listMax l ∈ l := by
  induction l with
  | nil => exact absurd rfl h
  | cons a t ih =>
    cases t with
    | nil => simp [listMax]
    | cons b u =>
      rcases le_total a (listMax (b :: u)) with hle | hle
      · have := ih (List.cons_ne_nil b u)
        right
        rwa [listMax, max_eq_right hle]
      · simp [listMax, max_eq_left hle]

theorem listMin_eq_of {l : List ℕ} {m : ℕ} (hmem : m ∈ l)
    (hle : ∀ x ∈ l, m ≤ x) : listMin l = m :=
  le_antisymm (listMin_le hmem) (hle _ (listMin_mem (List.ne_nil_of_mem hmem)))

theorem listMax_eq_of {l : List ℕ} {m : ℕ} (hmem : m ∈ l)
    (hle : ∀ x ∈ l, x ≤ m) : listMax l = m :=
  le_antisymm (hle _ (listMax_mem (List.ne_nil_of_mem hmem))) (le_listMax hmem)

/-! ### Masks restricted to the array domain -/

theorem bnd_iff {H W : ℕ} {m : Pos → Bool} {p : Pos} :
    bnd H W m p = true ↔ (p.1 < H ∧ p.2 < W) ∧ m p = true := by
  simp [bnd]

theorem bnd_mem_allPos {H W : ℕ} {m : Pos → Bool} {p : Pos}
    (h : bnd H W m p = true) : p ∈ allPos H W :=
  mem_allPos.mpr (bnd_iff.mp h).1

/-! ### Sums of nonnegative lists -/

theorem list_sum_pos_iff {l : List ℚ} (h : ∀ x ∈ l, 0 ≤ x) :
    0 < l.sum ↔ ∃ x ∈ l, 0 < x := by
  induction l with
  | nil => simp
  | cons a t ih =>
    have ha : 0 ≤ a := h a (List.mem_cons_self a t)
    have ht : ∀ x ∈ t, 0 ≤ x := fun x hx => h x (List.mem_cons_of_mem a hx)
    have hts : 0 ≤ t.sum := List.sum_nonneg ht
    rw [List.sum_cons]
    constructor
    · intro hpos
      by_cases hap : 0 < a
      · exact ⟨a, List.mem_cons_self a t, hap⟩
      · have : 0 < t.sum := by
          have : a = 0 := le_antisymm (not_lt.mp hap) ha
          rwa [this, zero_add] at hpos
        obtain ⟨x, hx, hxp⟩ := (ih ht).mp this
        exact ⟨x, List.mem_cons_of_mem a hx, hxp⟩
    · rintro ⟨x, hx, hxp⟩
      rcases List.mem_cons.mp hx with rfl | hx'
      · exact add_pos_of_pos_of_nonneg hxp hts
      · have : 0 < t.sum := (ih ht).mpr ⟨x, hx', hxp⟩
        exact add_pos_of_nonneg_of_pos ha this

/-! ### Membership in enumerated lists -/

theorem snd_mem_of_mem_enumFrom {α : Type} {l : List α} {n i : ℕ} {a : α}
    (h : (i, a) ∈ l.enumFrom n) : a ∈ l := by
  induction l generalizing n with
  | nil => cases h
  | cons b t ih =>
    rcases List.mem_cons.mp h with h' | h'
    · exact (Prod.mk.injEq .. ▸ h').2 ▸ List.mem_cons_self b t
    · exact List.mem_cons_of_mem b (ih h')

theorem snd_mem_of_mem_enum {α : Type} {l : List α} {i : ℕ} {a : α}
    (h : (i, a) ∈ l.enum) : a ∈ l :=
  snd_mem_of_mem_enumFrom h

/-- Rows of the data-level ROI table come from retained components. -/
theorem mem_selectRoisData {m : Pos → Bool} {H W minr maxr : ℕ} {r : RoiData}
    (hr : r ∈ selectRoisData m H W minr maxr) :
    ∃ i c, (i, c) ∈ (components (bnd H W m) (allPos H W)).enum ∧
      areaOK minr maxr c = true ∧ r = mkRoi (i + 1) c := by
  obtain ⟨⟨i, c⟩, hmem, heq⟩ := List.mem_filterMap.mp hr
  by_cases hok : areaOK minr maxr c = true
  · rw [if_pos hok] at heq
    exact ⟨i, c, hmem, hok, (Option.some.inj heq).symm⟩
  · rw [if_neg hok] at heq
    cases heq

/-! ### C3 — degenerate input handling of the relative binarizer -/

/-- C3 counterexample: the guard is `not im.any()` (all entries exactly 0),
not "all entries ≤ 0".  On the 1×1 matrix `[[-1]]` — all entries ≤ 0 —
the else branch runs, the positive-value selection is empty, and the
percentile computation fails (`none`), instead of returning the all-zero
mask the claim promises. -/
theorem c3_counterexample :
    doubleThresholdRel imNeg11 6 (1 / 2) = none ∧ imNeg11.val (0, 0) < 0 :=
  ⟨rfl, by norm_num [imNeg11]⟩

/-- C3 (amended): for every matrix whose entries are all exactly zero,
`_double_threshold_rel` short-circuits to the all-zero mask of the same
shape without computing percentiles. -/
theorem c3_all_zero_mask (im : Img) (bstd bper : ℚ)
    (h : ∀ p ∈ allPos im.H im.W, im.val p = 0) :
    doubleThresholdRel im bstd bper = some (fun _ => false) := by
  have hz : anyNonzero im = false := by
    unfold anyNonzero
    rw [List.any_eq_false]
    intro p hp
    simp [h p hp]
  unfold doubleThresholdRel
  rw [hz]
  simp

/-- C3 witness: the amended theorem applied to the 1×1 zero matrix. -/
theorem c3_witness : doubleThresholdRel imZero11 6 (1 / 2) = some (fun _ => false) :=
  c3_all_zero_mask imZero11 6 (1 / 2) (by decide)

/-! ### C5 — relative-mode threshold formula -/

/-- C5 counterexample: `[[-1]]` has a nonzero entry, yet the relative-mode
threshold computation has no strictly-positive values to take percentiles
of and fails (`none`) instead of producing the claimed threshold pair. -/
theorem c5_counterexample :
    relThresholds imNeg11 6 (1 / 2) = none ∧ imNeg11.val (0, 0) ≠ 0 :=
  ⟨rfl, by norm_num [imNeg11]⟩

/-- `np.percentile` succeeds on a nonempty list for quantiles in [0, 100]. -/
theorem percentileQ_isSome {l : List ℚ} (hne : l ≠ []) {q : ℚ}
    (h0 : 0 ≤ q) (h100 : q ≤ 100) : ∃ v, percentileQ l q = some v := by
  have hlen : (l.insertionSort (· ≤ ·)).length = l.length :=
    (l.perm_insertionSort (· ≤ ·)).length_eq
  have hlpos : 1 ≤ l.length := by
    cases l with
    | nil => exact absurd rfl hne
    | cons a t => simp
  have hl1 : (1 : ℚ) ≤ (l.length : ℚ) := by exact_mod_cast hlpos
  have hrank0 : 0 ≤ q / 100 * ((l.length : ℚ) - 1) := by
    apply mul_nonneg (by positivity)
    linarith
  have hrankle : q / 100 * ((l.length : ℚ) - 1) ≤ (l.length : ℚ) - 1 := by
    have hq1 : q / 100 ≤ 1 := by
      rw [div_le_one (by norm_num : (0:ℚ) < 100)]
      linarith
    have hnn : (0 : ℚ) ≤ (l.length : ℚ) - 1 := by linarith
    calc q / 100 * ((l.length : ℚ) - 1) ≤ 1 * ((l.length : ℚ) - 1) :=
          mul_le_mul_of_nonneg_right hq1 hnn
      _ = (l.length : ℚ) - 1 := one_mul _
  have hfl0 : 0 ≤ Int.floor (q / 100 * ((l.length : ℚ) - 1)) :=
    Int.le_floor.mpr (by exact_mod_cast hrank0)
  have hfl : Int.floor (q / 100 * ((l.length : ℚ) - 1)) ≤ (l.length : ℤ) - 1 := by
    have hmono := Int.floor_le_floor hrankle
    have heq : Int.floor ((l.length : ℚ) - 1) = (l.length : ℤ) - 1 := by
      rw [show ((l.length : ℚ) - 1) = (((l.length : ℤ) - 1 : ℤ) : ℚ) by push_cast; ring]
      exact Int.floor_intCast _
    omega
  have hi : (Int.floor (q / 100 * ((l.length : ℚ) - 1))).toNat <
      (l.insertionSort (· ≤ ·)).length := by
    rw [hlen]
    omega
  cases ha : (l.insertionSort (· ≤ ·)).get?
      (Int.floor (q / 100 * ((l.length : ℚ) - 1))).toNat with
  | none =>
    exact absurd (List.get?_eq_none.mp ha) (by omega)
  | some a =>
    cases hb : (l.insertionSort (· ≤ ·)).get?
        ((Int.floor (q / 100 * ((l.length : ℚ) - 1))).toNat + 1) with
    | none =>
      refine ⟨a, ?_⟩
      unfold percentileQ
      simp only [ha, hb]
    | some b =>
      refine ⟨a + (q / 100 * ((l.length : ℚ) - 1) -
          ((Int.floor (q / 100 * ((l.length : ℚ) - 1)) : ℤ) : ℚ)) * (b - a), ?_⟩
      unfold percentileQ
      simp only [ha, hb]

/-- C5 (amended): for every matrix containing at least one strictly positive
entry, the relative thresholds are
`high = P75(positives) + (P75(positives) − P25(positives)) * bin_std` and
`low = high * (1 − bin_per)`.  (With merely a nonzero entry the computation
can fail, see the counterexample.) -/
theorem c5_rel_thresholds (im : Img) (bstd bper : ℚ)
    (h : ∃ p ∈ allPos im.H im.W, 0 < im.val p) :
    ∃ p75 p25,
      percentileQ (positivesOf im) 75 = some p75 ∧
      percentileQ (positivesOf im) 25 = some p25 ∧
      relThresholds im bstd bper =
        some (p75 + (p75 - p25) * bstd,
              (p75 + (p75 - p25) * bstd) * (1 - bper)) := by
  obtain ⟨p, hp, hpos⟩ := h
  have hne : positivesOf im ≠ [] := by
    have : im.val p ∈ positivesOf im := by
      unfold positivesOf
      rw [List.mem_filter]
      exact ⟨List.mem_map_of_mem im.val hp, by simpa using hpos⟩
    exact List.ne_nil_of_mem this
  obtain ⟨p75, h75⟩ := percentileQ_isSome hne (by norm_num : (0:ℚ) ≤ 75) (by norm_num)
  obtain ⟨p25, h25⟩ := percentileQ_isSome hne (by norm_num : (0:ℚ) ≤ 25) (by norm_num)
  refine ⟨p75, p25, h75, h25, ?_⟩
  have hres : relThresholds im bstd bper =
      some (p75 + (p75 - p25) * bstd,
            p75 + (p75 - p25) * bstd - (p75 + (p75 - p25) * bstd) * bper) := by
    unfold relThresholds
    rw [h75, h25]
  rw [hres]
  have hformula : p75 + (p75 - p25) * bstd - (p75 + (p75 - p25) * bstd) * bper =
      (p75 + (p75 - p25) * bstd) * (1 - bper) := by ring
  rw [hformula]

/-- C5 witness: the amended theorem applied to the 1×1 matrix `[[1]]`. -/
theorem c5_witness :
    ∃ p75 p25,
      percentileQ (positivesOf imOne11) 75 = some p75 ∧
      percentileQ (positivesOf imOne11) 25 = some p25 ∧
      relThresholds imOne11 6 (1 / 2) =
        some (p75 + (p75 - p25) * 6,
              (p75 + (p75 - p25) * 6) * (1 - 1 / 2)) :=
  c5_rel_thresholds imOne11 6 (1 / 2) (by decide)

/-! ### C6 — the column guard of `rois_to_imblobs` -/

/-- C6: the guard expression
`('min_y' and 'min_x' and 'max_y' and 'max_x') in rois` collapses, by
Python `and`-chaining of truthy strings, to `'max_x' in rois`.  With
columns `min_x, max_y, max_x` present but `min_y` missing, the guard
passes (no `TypeError` is raised before the column selection), contrary
to the claim that every missing column is signalled immediately. -/
theorem c6_guard_misses_min_y :
    imblobsGuard ["min_x", "max_y", "max_x"] = true ∧
      "min_y" ∉ (["min_x", "max_y", "max_x"] : List String) := by
  exact ⟨by decide, by decide⟩

/-! ### C9 — absolute-mode defaults of `create_mask` -/

/-- C9: with mode `'absolute'` and both thresholds omitted, `create_mask`
pops `bin_l` with default 0.3 (line 427), not the 0.2 documented for
`_double_threshold_abs`; on `[[0.8, 0.25]]` the 0.3 default drops the weak
pixel that a 0.2 low threshold would keep. -/
theorem c9_absolute_default_low :
    createMask imAbs12 "absolute" none none none none =
        some (doubleThresholdAbs imAbs12 (7 / 10) (3 / 10)) ∧
      doubleThresholdAbs imAbs12 (7 / 10) (3 / 10) (0, 1) = false ∧
      doubleThresholdAbs imAbs12 (7 / 10) (2 / 10) (0, 1) = true := by
  refine ⟨rfl, by with_unfolding_all rfl, by with_unfolding_all rfl⟩

/-! ### C10 — buffer mutation in `rois_to_imblobs` -/

/-- The painting loop writes 1 at every in-bounds pixel covered by some box
and leaves every other cell of the buffer unchanged. -/
theorem foldl_paint_val (H W : ℕ) (rois : List RoiData) (buf : Pos → ℕ)
    (p : Pos) :
    rois.foldl (paintOne H W) buf p =
      if p.1 < H ∧ p.2 < W ∧ rois.any (fun r => coversB r p) = true then 1
      else buf p := by
  induction rois generalizing buf with
  | nil => simp
  | cons r t ih =>
    rw [List.foldl_cons, ih]
    by_cases hin : p.1 < H ∧ p.2 < W
    · by_cases hc : coversB r p = true
      · simp [paintOne, hin.1, hin.2, hc]
      · simp [paintOne, hin.1, hin.2, hc]
    · have h1 : ¬(p.1 < H ∧ p.2 < W ∧ (t.any (fun r => coversB r p)) = true) := by
        intro h
        exact hin ⟨h.1, h.2.1⟩
      have h2 : ¬(p.1 < H ∧ p.2 < W ∧ ((r :: t).any (fun r => coversB r p)) = true) := by
        intro h
        exact hin ⟨h.1, h.2.1⟩
      rw [if_neg h1, if_neg h2]
      unfold paintOne
      rw [if_neg]
      intro h
      exact hin ⟨h.1, h.2.1⟩

/-- C10 counterexample: after `rois_to_imblobs` paints the unit box on a
1×1 zero canvas, the array that was passed in holds a 1 where it held 0
before the call — the input is mutated in place. -/
theorem c10_counterexample :
    (roisToImblobs 1 1 zeroCanvas rowsUnit).1 (0, 0) = 1 ∧
      zeroCanvas (0, 0) = 0 := by
  exact ⟨by decide, rfl⟩

/-- C10 (amended): `_double_threshold_rel/_abs` and `select_rois` are pure,
but `rois_to_imblobs` paints the boxes into its canvas argument in place:
after the call the caller's array holds 1 at every covered in-bounds pixel
and its old value elsewhere; the returned array is a fresh `astype(int)`
copy with those same values. -/
theorem c10_imblobs_buffer (H W : ℕ) (buf : Pos → ℕ) (rois : List RoiData)
    (p : Pos) :
    (roisToImblobs H W buf rois).1 p =
        (if p.1 < H ∧ p.2 < W ∧ rois.any (fun r => coversB r p) = true then 1
         else buf p) ∧
      (roisToImblobs H W buf rois).2 p = (roisToImblobs H W buf rois).1 p :=
  ⟨foldl_paint_val H W rois buf p, rfl⟩

/-! ### C2 — bounding-box invariant of `select_rois` -/

theorem components_subset_dom {fg : Pos → Bool} {dom : List Pos}
    {c : List Pos} (hc : c ∈ components fg dom) : c ⊆ dom := by
  obtain ⟨r, _, _, rfl⟩ := mem_components_iff.mp hc
  exact compL_subset_dom fg dom r

/-- C2: every row of the `select_rois` table has `min_y ≤ max_y`,
`min_x ≤ max_x`, and all four inclusive bounds inside the array
(`max_y ≤ H − 1`, `max_x ≤ W − 1`; the minima are naturals, hence ≥ 0);
the maxima are skimage's half-open bbox values minus 1 (see `mkRoi`). -/
theorem c2_bbox_invariant (m : Pos → Bool) (H W min_roi max_roi : ℕ)
    (r : RoiData) (hr : r ∈ selectRoisData m H W min_roi max_roi) :
    r.min_y ≤ r.max_y ∧ r.min_x ≤ r.max_x ∧ r.max_y ≤ H - 1 ∧ r.max_x ≤ W - 1 := by
  obtain ⟨i, c, henum, hok, rfl⟩ := mem_selectRoisData hr
  have hc : c ∈ components (bnd H W m) (allPos H W) := snd_mem_of_mem_enum henum
  have hcd : c ⊆ allPos H W := components_subset_dom hc
  have hne : c ≠ [] := components_ne_nil hc
  have hry : c.map Prod.fst ≠ [] := by
    intro hmap
    exact hne (List.map_eq_nil_iff.mp hmap)
  have hrx : c.map Prod.snd ≠ [] := by
    intro hmap
    exact hne (List.map_eq_nil_iff.mp hmap)
  have hmaxy : listMax (c.map Prod.fst) ≤ H - 1 := by
    obtain ⟨q, hq, hqeq⟩ := List.mem_map.mp (listMax_mem hry)
    have hqb := mem_allPos.mp (hcd hq)
    omega
  have hmaxx : listMax (c.map Prod.snd) ≤ W - 1 := by
    obtain ⟨q, hq, hqeq⟩ := List.mem_map.mp (listMax_mem hrx)
    have hqb := mem_allPos.mp (hcd hq)
    omega
  refine ⟨?_, ?_, ?_, ?_⟩ <;>
    simp only [mkRoi, Nat.add_sub_cancel]
  · exact listMin_le (listMax_mem hry)
  · exact listMin_le (listMax_mem hrx)
  · exact hmaxy
  · exact hmaxx

/-- C2 witness: the invariant at the single-pixel mask `[[1]]`. -/
theorem c2_witness :
    (⟨1, "unknown", 0, 0, 0, 0⟩ : RoiData) ∈
        selectRoisData (fun _ => true) 1 1 1 1 ∧
      ((⟨1, "unknown", 0, 0, 0, 0⟩ : RoiData).min_y ≤
          (⟨1, "unknown", 0, 0, 0, 0⟩ : RoiData).max_y ∧
        (⟨1, "unknown", 0, 0, 0, 0⟩ : RoiData).min_x ≤
          (⟨1, "unknown", 0, 0, 0, 0⟩ : RoiData).max_x ∧
        (⟨1, "unknown", 0, 0, 0, 0⟩ : RoiData).max_y ≤ 1 - 1 ∧
        (⟨1, "unknown", 0, 0, 0, 0⟩ : RoiData).max_x ≤ 1 - 1) :=
  ⟨by decide, c2_bbox_invariant (fun _ => true) 1 1 1 1 _ (by decide)⟩

/-! ### C7 — DataFrame schema and cell dtypes of `select_rois` -/

/-- C7 counterexample: on the mask `[[1]]` the returned table's `labelID`
cell is the string `"1"`, not an integer — `np.concatenate` promoted the
mixed label data to strings and `labelID` is absent from the `astype`
cast (line 608). -/
theorem c7_counterexample :
    selectRoisTable (fun _ => true) 1 1 1 1 =
        [⟨CellV.strV "1", CellV.strV "unknown", CellV.intV 0, CellV.intV 0,
          CellV.intV 0, CellV.intV 0⟩] ∧
      CellV.strV "1" ≠ CellV.intV 1 :=
  ⟨by decide, by decide⟩

/-- C7 (amended): every row of the `select_rois` DataFrame has exactly the
six columns `labelID, label, min_y, min_x, max_y, max_x`, with the four
bounds integer-typed and `label` the string `"unknown"` — but `labelID`
is string-typed (the stringified component label), in the zero-row case
as in every other. -/
theorem c7_cell_types (m : Pos → Bool) (H W min_roi max_roi : ℕ)
    (row : RoiRow) (hrow : row ∈ selectRoisTable m H W min_roi max_roi) :
    (∃ s, row.labelID = CellV.strV s) ∧ row.label = CellV.strV "unknown" ∧
      (∃ a, row.min_y = CellV.intV a) ∧ (∃ a, row.min_x = CellV.intV a) ∧
      (∃ a, row.max_y = CellV.intV a) ∧ (∃ a, row.max_x = CellV.intV a) := by
  obtain ⟨d, hd, rfl⟩ := List.mem_map.mp hrow
  obtain ⟨i, c, henum, hok, rfl⟩ := mem_selectRoisData hd
  exact ⟨⟨_, rfl⟩, rfl, ⟨_, rfl⟩, ⟨_, rfl⟩, ⟨_, rfl⟩, ⟨_, rfl⟩⟩

/-- C7 witness: the amended schema statement at the mask `[[1]]`. -/
theorem c7_witness :
    (⟨CellV.strV "1", CellV.strV "unknown", CellV.intV 0, CellV.intV 0,
        CellV.intV 0, CellV.intV 0⟩ : RoiRow) ∈
        selectRoisTable (fun _ => true) 1 1 1 1 ∧
      ((∃ s, (⟨CellV.strV "1", CellV.strV "unknown", CellV.intV 0, CellV.intV 0,
          CellV.intV 0, CellV.intV 0⟩ : RoiRow).labelID = CellV.strV s) ∧
        (⟨CellV.strV "1", CellV.strV "unknown", CellV.intV 0, CellV.intV 0,
          CellV.intV 0, CellV.intV 0⟩ : RoiRow).label = CellV.strV "unknown" ∧
        (∃ a, (⟨CellV.strV "1", CellV.strV "unknown", CellV.intV 0, CellV.intV 0,
          CellV.intV 0, CellV.intV 0⟩ : RoiRow).min_y = CellV.intV a) ∧
        (∃ a, (⟨CellV.strV "1", CellV.strV "unknown", CellV.intV 0, CellV.intV 0,
          CellV.intV 0, CellV.intV 0⟩ : RoiRow).min_x = CellV.intV a) ∧
        (∃ a, (⟨CellV.strV "1", CellV.strV "unknown", CellV.intV 0, CellV.intV 0,
          CellV.intV 0, CellV.intV 0⟩ : RoiRow).max_y = CellV.intV a) ∧
        (∃ a, (⟨CellV.strV "1", CellV.strV "unknown", CellV.intV 0, CellV.intV 0,
          CellV.intV 0, CellV.intV 0⟩ : RoiRow).max_x = CellV.intV a)) :=
  ⟨by decide, c7_cell_types (fun _ => true) 1 1 1 1 _ (by decide)⟩

/-! ### C1 — hysteresis retention rule -/

/-- C1 counterexample: on the 1×1 matrix `[[0]]` with thresholds
`high = −1, low = −2`, the single component contains a seed pixel
(`0 > −1`), yet the seed-restricted mean is 0, so the component is dropped
and the output pixel is 0 — the "mean > 0 iff some seed pixel" equivalence
fails for negative high thresholds. -/
theorem c1_counterexample :
    [((0 : ℕ), (0 : ℕ))] ∈ components (fgLow imZero11 (-2)) (allPos 1 1) ∧
      (-1 : ℚ) < imZero11.val (0, 0) ∧
      doubleThresholdAbs imZero11 (-1) (-2) (0, 0) = false := by
  refine ⟨by with_unfolding_all decide, by norm_num [imZero11],
    by with_unfolding_all rfl⟩

/-- C1 (amended): for every threshold pair, a component of the low mask
appears in the output iff the mean of the seed-restricted matrix over its
pixels is > 0; whenever the high threshold is nonnegative (true in relative
mode, and in absolute mode under the documented `[0,1]` normalization) that
condition is moreover equivalent to the component containing at least one
seed pixel. -/
theorem c1_component_kept_iff (im : Img) (h l : ℚ)
    (c : List Pos) (hc : c ∈ components (fgLow im l) (allPos im.H im.W)) :
    (∀ p ∈ c, (doubleThresholdAbs im h l p = true ↔ 0 < compMean im h c)) ∧
      (0 ≤ h → ((0 < compMean im h c) ↔ ∃ q ∈ c, h < im.val q)) := by
  have hdom : ∀ r, fgLow im l r = true → r ∈ allPos im.H im.W :=
    fun r hr => bnd_mem_allPos hr
  have hd := nodup_allPos im.H im.W
  have hne : c ≠ [] := components_ne_nil hc
  have hlen : (0 : ℚ) < (c.length : ℚ) := by
    have : 0 < c.length := List.length_pos.mpr hne
    exact_mod_cast this
  constructor
  · intro p hp
    constructor
    · intro hout
      unfold doubleThresholdAbs at hout
      rw [List.any_eq_true] at hout
      obtain ⟨c', hc', hpc'⟩ := hout
      rw [decide_eq_true_iff] at hpc'
      unfold keptComps at hc'
      rw [List.mem_filter] at hc'
      have hcc : c' = c := components_unique hdom hd hc'.1 hc hpc' hp
      have := hc'.2
      rw [decide_eq_true_iff] at this
      exact hcc ▸ this
    · intro hmean
      unfold doubleThresholdAbs
      rw [List.any_eq_true]
      refine ⟨c, ?_, decide_eq_true hp⟩
      unfold keptComps
      exact List.mem_filter.mpr ⟨hc, decide_eq_true hmean⟩
  · intro hh
    have hnn : ∀ x ∈ c.map (seedVal im h), 0 ≤ x := by
      intro x hx
      obtain ⟨q, hq, rfl⟩ := List.mem_map.mp hx
      unfold seedVal
      by_cases hcase : h < im.val q
      · rw [if_pos hcase]
        linarith
      · rw [if_neg hcase]
    unfold compMean
    rw [div_pos_iff]
    constructor
    · rintro (⟨hs, _⟩ | ⟨_, hb⟩)
      · obtain ⟨x, hx, hxp⟩ := (list_sum_pos_iff hnn).mp hs
        obtain ⟨q, hq, rfl⟩ := List.mem_map.mp hx
        refine ⟨q, hq, ?_⟩
        by_contra hcon
        unfold seedVal at hxp
        rw [if_neg hcon] at hxp
        exact lt_irrefl 0 hxp
      · linarith
    · rintro ⟨q, hq, hseed⟩
      refine Or.inl ⟨?_, hlen⟩
      apply (list_sum_pos_iff hnn).mpr
      refine ⟨seedVal im h q, List.mem_map_of_mem _ hq, ?_⟩
      unfold seedVal
      rw [if_pos hseed]
      linarith

/-! ### C8 — re-running `select_rois` on its own output -/

theorem contains_iff_mem_nat {l : List ℕ} {n : ℕ} :
    l.contains n = true ↔ n ∈ l := by
  induction l with
  | nil => simp
  | cons a t ih =>
    rw [List.contains_cons, Bool.or_eq_true, beq_iff_eq, ih, List.mem_cons]

theorem mem_enumFrom_iff {α : Type} {l : List α} {n i : ℕ} {a : α} :
    (i, a) ∈ l.enumFrom n ↔ n ≤ i ∧ l.get? (i - n) = some a := by
  induction l generalizing n with
  | nil => simp
  | cons b t ih =>
    rw [List.enumFrom_cons, List.mem_cons, ih]
    constructor
    · rintro (heq | ⟨hle, hget⟩)
      · obtain ⟨rfl, rfl⟩ := Prod.mk.injEq .. ▸ heq
        simp
      · refine ⟨by omega, ?_⟩
        have hsub : i - n = (i - (n + 1)) + 1 := by omega
        rw [hsub, List.get?_cons_succ]
        exact hget
    · rintro ⟨hle, hget⟩
      by_cases hni : i = n
      · subst hni
        rw [Nat.sub_self, List.get?_cons_zero] at hget
        exact Or.inl (by rw [Option.some.inj hget])
      · refine Or.inr ⟨by omega, ?_⟩
        have hsub : i - n = (i - (n + 1)) + 1 := by omega
        rw [hsub, List.get?_cons_succ] at hget
        exact hget

theorem mem_enum_iff {α : Type} {l : List α} {i : ℕ} {a : α} :
    (i, a) ∈ l.enum ↔ l.get? i = some a := by
  have h := mem_enumFrom_iff (l := l) (n := 0) (i := i) (a := a)
  simpa [List.enum] using h

/-- The label image is `i + 1` exactly on the pixels of the `i`-th listed
component (labels are unique because distinct components are disjoint). -/
theorem labelsImg_eq_succ_iff {fg : Pos → Bool} {dom : List Pos}
    (hdom : ∀ r, fg r = true → r ∈ dom) (hd : dom.Nodup) {p : Pos} {i : ℕ} :
    labelsImg fg dom p = i + 1 ↔
      ∃ c, (components fg dom).get? i = some c ∧ p ∈ c := by
  unfold labelsImg
  constructor
  · intro h
    cases hf : (components fg dom).findIdx? (fun c => decide (p ∈ c)) with
    | none => rw [hf] at h; cases h
    | some j =>
      rw [hf] at h
      have hj : j + 1 = i + 1 := h
      have hij : j = i := by omega
      subst hij
      obtain ⟨hlt, hpj, _⟩ := List.findIdx?_eq_some_iff_getElem.mp hf
      refine ⟨(components fg dom)[j], ?_, ?_⟩
      · rw [List.get?_eq_getElem?]
        exact List.getElem?_eq_getElem hlt
      · exact decide_eq_true_iff.mp hpj
  · rintro ⟨c, hget, hpc⟩
    have hlt : i < (components fg dom).length :=
      (List.get?_eq_some.mp hget).1
    have hci : (components fg dom)[i] = c := by
      have := List.get?_eq_getElem? (components fg dom) i
      rw [this, List.getElem?_eq_getElem hlt] at hget
      exact Option.some.inj hget
    have hfind : (components fg dom).findIdx? (fun c => decide (p ∈ c)) = some i := by
      rw [List.findIdx?_eq_some_iff_getElem]
      refine ⟨hlt, by rw [hci]; exact decide_eq_true hpc, ?_⟩
      intro j hji hcon0
      have hjlt : j < (components fg dom).length := Nat.lt_trans hji hlt
      have hcon : p ∈ (components fg dom)[j] :=
        decide_eq_true_iff.mp hcon0
      have hmemj : (components fg dom)[j] ∈ components fg dom := List.getElem_mem hjlt
      have hmemi : (components fg dom)[i] ∈ components fg dom := List.getElem_mem hlt
      have heq : (components fg dom)[j] = (components fg dom)[i] :=
        components_unique hdom hd hmemj hmemi hcon (hci ▸ hpc)
      have hnd : (components fg dom).Nodup := nodup_components hd
      have : j = i := by
        have hinj := (List.Nodup.get_inj_iff hnd
          (i := ⟨j, hjlt⟩) (j := ⟨i, hlt⟩)).mp
        simp only [List.get_eq_getElem] at hinj
        exact Fin.mk.injEq .. ▸ (hinj heq)
      omega
    rw [hfind]

theorem labelsImg_eq_zero_iff {fg : Pos → Bool} {dom : List Pos} {p : Pos} :
    labelsImg fg dom p = 0 ↔ ∀ c ∈ components fg dom, p ∉ c := by
  unfold labelsImg
  cases hf : (components fg dom).findIdx? (fun c => decide (p ∈ c)) with
  | none =>
    simp only [true_iff]
    intro c hc hpc
    have := List.findIdx?_eq_none_iff.mp hf c hc
    rw [decide_eq_false_iff_not] at this
    exact this hpc
  | some j =>
    simp only [Nat.succ_ne_zero, false_iff, not_forall]
    obtain ⟨hlt, hpj, _⟩ := List.findIdx?_eq_some_iff_getElem.mp hf
    exact ⟨(components fg dom)[j], List.getElem_mem hlt,
      by simp [decide_eq_true_iff.mp hpj]⟩

/-- The retained label ids are exactly `i + 1` for the components at
positions `i` that pass the area filter. -/
theorem mem_keptLabelIDs_iff {m : Pos → Bool} {H W min_roi max_roi : ℕ} {n : ℕ} :
    n ∈ keptLabelIDs m H W min_roi max_roi ↔
      ∃ i c, (components (bnd H W m) (allPos H W)).get? i = some c ∧
        areaOK min_roi max_roi c = true ∧ n = i + 1 := by
  unfold keptLabelIDs
  constructor
  · intro h
    obtain ⟨r, hr, hn⟩ := List.mem_map.mp h
    obtain ⟨i, c, henum, hok, rfl⟩ := mem_selectRoisData hr
    exact ⟨i, c, mem_enum_iff.mp henum, hok, hn.symm⟩
  · rintro ⟨i, c, hget, hok, rfl⟩
    refine List.mem_map.mpr ⟨mkRoi (i + 1) c, ?_, rfl⟩
    unfold selectRoisData
    refine List.mem_filterMap.mpr ⟨(i, c), mem_enum_iff.mpr hget, ?_⟩
    rw [if_pos hok]

/-- Pixels of the restricted label image `im_rois` are nonzero exactly on
the retained components. -/
theorem fg2_iff {m : Pos → Bool} {H W min_roi max_roi : ℕ} {p : Pos} :
    bnd H W (maskOfImg (imRoisImg m H W min_roi max_roi)) p = true ↔
      ∃ i c, (components (bnd H W m) (allPos H W)).get? i = some c ∧
        areaOK min_roi max_roi c = true ∧ p ∈ c := by
  have hdom : ∀ r, bnd H W m r = true → r ∈ allPos H W :=
    fun r hr => bnd_mem_allPos hr
  have hd := nodup_allPos H W
  rw [bnd_iff]
  unfold maskOfImg imRoisImg
  constructor
  · rintro ⟨hb, himg⟩
    rw [decide_eq_true_iff] at himg
    by_cases hcont :
        (keptLabelIDs m H W min_roi max_roi).contains
          (labelsImg (bnd H W m) (allPos H W) p) = true
    · rw [if_pos hcont] at himg
      have hmem := contains_iff_mem_nat.mp hcont
      obtain ⟨i, c, hget, hok, hlab⟩ := mem_keptLabelIDs_iff.mp hmem
      obtain ⟨c', hget', hpc'⟩ :=
        (labelsImg_eq_succ_iff hdom hd).mp hlab
      rw [hget] at hget'
      exact ⟨i, c, hget, hok, (Option.some.inj hget') ▸ hpc'⟩
    · rw [if_neg hcont] at himg
      exact absurd rfl himg
  · rintro ⟨i, c, hget, hok, hpc⟩
    have hcmem : c ∈ components (bnd H W m) (allPos H W) := List.get?_mem hget
    have hbp : bnd H W m p = true := fg_of_mem_components hdom hd hcmem hpc
    have hb : p.1 < H ∧ p.2 < W := (bnd_iff.mp hbp).1
    have hlab : labelsImg (bnd H W m) (allPos H W) p = i + 1 :=
      (labelsImg_eq_succ_iff hdom hd).mpr ⟨c, hget, hpc⟩
    have hcont :
        (keptLabelIDs m H W min_roi max_roi).contains
          (labelsImg (bnd H W m) (allPos H W) p) = true := by
      rw [contains_iff_mem_nat, hlab]
      exact mem_keptLabelIDs_iff.mpr ⟨i, c, hget, hok, rfl⟩
    refine ⟨hb, ?_⟩
    rw [decide_eq_true_iff, if_pos hcont, hlab]
    exact Nat.succ_ne_zero i

theorem fg2_le_fg {m : Pos → Bool} {H W min_roi max_roi : ℕ} {p : Pos}
    (h : bnd H W (maskOfImg (imRoisImg m H W min_roi max_roi)) p = true) :
    bnd H W m p = true := by
  have hdom : ∀ r, bnd H W m r = true → r ∈ allPos H W :=
    fun r hr => bnd_mem_allPos hr
  obtain ⟨i, c, hget, _, hpc⟩ := fg2_iff.mp h
  exact fg_of_mem_components hdom (nodup_allPos H W) (List.get?_mem hget) hpc

/-- Removing whole components does not change the remaining components:
on retained pixels, reachability in the restricted mask agrees with
reachability in the original mask. -/
theorem compL_fg2_eq {m : Pos → Bool} {H W min_roi max_roi : ℕ} {p : Pos}
    (hp : bnd H W (maskOfImg (imRoisImg m H W min_roi max_roi)) p = true) :
    compL (bnd H W (maskOfImg (imRoisImg m H W min_roi max_roi))) (allPos H W) p =
      compL (bnd H W m) (allPos H W) p := by
  have hdom : ∀ r, bnd H W m r = true → r ∈ allPos H W :=
    fun r hr => bnd_mem_allPos hr
  have hdom2 : ∀ r,
      bnd H W (maskOfImg (imRoisImg m H W min_roi max_roi)) r = true →
        r ∈ allPos H W :=
    fun r hr => bnd_mem_allPos hr
  have hd := nodup_allPos H W
  obtain ⟨i, c0, hget, hok, hpc0⟩ := fg2_iff.mp hp
  have hc0 : c0 ∈ components (bnd H W m) (allPos H W) := List.get?_mem hget
  have hfgp : bnd H W m p = true := fg_of_mem_components hdom hd hc0 hpc0
  have hreach_in : ∀ q, Reach (bnd H W m) p q → q ∈ c0 := by
    intro q hq
    have hqdom : q ∈ allPos H W := by
      rcases reach_fg hq with rfl | hfq
      · exact hdom q hfgp
      · exact hdom q hfq
    have : q ∈ compL (bnd H W m) (allPos H W) p :=
      (mem_compL hdom hd).mpr ⟨hqdom, hq⟩
    rw [← comp_eq_compL hdom hd hc0 hpc0] at this
    exact this
  have hfg2_of_mem : ∀ q ∈ c0,
      bnd H W (maskOfImg (imRoisImg m H W min_roi max_roi)) q = true := by
    intro q hq
    exact fg2_iff.mpr ⟨i, c0, hget, hok, hq⟩
  have hreach_up : ∀ q, Reach (bnd H W m) p q →
      Reach (bnd H W (maskOfImg (imRoisImg m H W min_roi max_roi))) p q := by
    intro q hq
    induction hq with
    | refl => exact Relation.ReflTransGen.refl
    | @tail r q hpr hstep ih =>
      have hq' : q ∈ c0 := hreach_in q (Relation.ReflTransGen.tail hpr hstep)
      exact Relation.ReflTransGen.tail ih ⟨hstep.1, hfg2_of_mem q hq'⟩
  unfold compL
  refine List.filter_congr ?_
  intro q hq
  simp only [decide_eq_decide]
  rw [mem_compO_iff hdom2 hd, mem_compO_iff hdom hd]
  exact ⟨fun h => reach_mono (fun r hr => fg2_le_fg hr) h, fun h => hreach_up q h⟩

/-- The components of the restricted mask are exactly the retained
components of the original mask, in the same order. -/
theorem components_fg2_eq {m : Pos → Bool} {H W min_roi max_roi : ℕ} :
    components (bnd H W (maskOfImg (imRoisImg m H W min_roi max_roi))) (allPos H W) =
      (components (bnd H W m) (allPos H W)).filter (areaOK min_roi max_roi) := by
  have hdom : ∀ r, bnd H W m r = true → r ∈ allPos H W :=
    fun r hr => bnd_mem_allPos hr
  have hd := nodup_allPos H W
  set fg2 := bnd H W (maskOfImg (imRoisImg m H W min_roi max_roi)) with hfg2def
  have hroot_eq : ∀ p ∈ allPos H W,
      isRoot fg2 (allPos H W) p =
        (isRoot (bnd H W m) (allPos H W) p &&
          areaOK min_roi max_roi (compL (bnd H W m) (allPos H W) p)) := by
    intro p _
    refine Bool.coe_iff_coe.mp ?_
    rw [Bool.and_eq_true]
    constructor
    · intro hroot
      have hfg2p : fg2 p = true := (isRoot_iff.mp hroot).1
      have hfgp : bnd H W m p = true := fg2_le_fg hfg2p
      have hcomp := compL_fg2_eq (m := m) hfg2p
      obtain ⟨i, c, hget, hok, hpc⟩ := fg2_iff.mp hfg2p
      have hcmem : c ∈ components (bnd H W m) (allPos H W) := List.get?_mem hget
      have hceq : c = compL (bnd H W m) (allPos H W) p :=
        comp_eq_compL hdom hd hcmem hpc
      refine ⟨isRoot_iff.mpr ⟨hfgp, ?_⟩, hceq ▸ hok⟩
      rw [← hcomp]
      exact (isRoot_iff.mp hroot).2
    · rintro ⟨hroot, hok⟩
      have hfgp : bnd H W m p = true := (isRoot_iff.mp hroot).1
      have hpc : p ∈ compL (bnd H W m) (allPos H W) p := root_mem_self hroot
      have hcmem : compL (bnd H W m) (allPos H W) p ∈
          components (bnd H W m) (allPos H W) := by
        rw [mem_components_iff]
        exact ⟨p, hdom p hfgp, hroot, rfl⟩
      obtain ⟨j, hget⟩ := List.mem_iff_get?.mp hcmem
      have hfg2p : fg2 p = true := fg2_iff.mpr ⟨j, _, hget, hok, hpc⟩
      have hcomp := compL_fg2_eq (m := m) hfg2p
      refine isRoot_iff.mpr ⟨hfg2p, ?_⟩
      rw [hcomp]
      exact (isRoot_iff.mp hroot).2
  unfold components
  rw [List.filter_congr hroot_eq]
  have hfilter :
      (allPos H W).filter
          (fun p => isRoot (bnd H W m) (allPos H W) p &&
            areaOK min_roi max_roi (compL (bnd H W m) (allPos H W) p)) =
        ((allPos H W).filter (isRoot (bnd H W m) (allPos H W))).filter
          (fun p => areaOK min_roi max_roi (compL (bnd H W m) (allPos H W) p)) := by
    rw [List.filter_filter]
    refine List.filter_congr ?_
    intro p _
    rw [Bool.and_comm]
  rw [hfilter]
  have hmap : (((allPos H W).filter (isRoot (bnd H W m) (allPos H W))).filter
        (fun p => areaOK min_roi max_roi (compL (bnd H W m) (allPos H W) p))).map
          (compL fg2 (allPos H W)) =
      (((allPos H W).filter (isRoot (bnd H W m) (allPos H W))).filter
        (fun p => areaOK min_roi max_roi (compL (bnd H W m) (allPos H W) p))).map
          (compL (bnd H W m) (allPos H W)) := by
    refine List.map_congr_left ?_
    intro p hp
    have hp1 := List.mem_filter.mp hp
    have hp2 := List.mem_filter.mp hp1.1
    have hroot := hp2.2
    have hfgp : bnd H W m p = true := (isRoot_iff.mp hroot).1
    have hpc : p ∈ compL (bnd H W m) (allPos H W) p := root_mem_self hroot
    have hcmem : compL (bnd H W m) (allPos H W) p ∈
        components (bnd H W m) (allPos H W) := by
      rw [mem_components_iff]
      exact ⟨p, hdom p hfgp, hroot, rfl⟩
    obtain ⟨j, hget⟩ := List.mem_iff_get?.mp hcmem
    exact compL_fg2_eq (m := m) (fg2_iff.mpr ⟨j, _, hget, hp1.2, hpc⟩)
  rw [hmap, List.filter_map]
  rfl

/-- Dropping `labelID`, the rows of the filtered enumeration are the rows of
the plain filtered component list. -/
theorem enumFrom_filterMap_dropID (min_roi max_roi : ℕ) :
    ∀ (L : List (List Pos)) (n : ℕ),
      ((L.enumFrom n).filterMap
          (fun ic => if areaOK min_roi max_roi ic.2 then
            some (mkRoi (ic.1 + 1) ic.2) else none)).map dropID =
        (L.filter (areaOK min_roi max_roi)).map (fun c => dropID (mkRoi 1 c)) := by
  intro L
  induction L with
  | nil => intro n; rfl
  | cons c t ih =>
    intro n
    rw [List.enumFrom_cons, List.filterMap_cons]
    by_cases hok : areaOK min_roi max_roi c = true
    · rw [if_pos hok, List.map_cons, ih (n + 1), List.filter_cons_of_pos hok,
        List.map_cons]
      rfl
    · rw [if_neg hok, ih (n + 1), List.filter_cons_of_neg hok]

/-- C8 (amended): re-running `select_rois` with the same area bounds on the
0/1 mask of its own `im_rois` output returns a RegionTable identical to
the first except for the `labelID` column (surviving components are
renumbered consecutively by the second labeling pass). -/
theorem c8_idempotent_mod_labelID (m : Pos → Bool) (H W min_roi max_roi : ℕ) :
    (selectRoisData (maskOfImg (imRoisImg m H W min_roi max_roi))
        H W min_roi max_roi).map dropID =
      (selectRoisData m H W min_roi max_roi).map dropID := by
  unfold selectRoisData
  have h1 : ((components (bnd H W (maskOfImg (imRoisImg m H W min_roi max_roi)))
        (allPos H W)).enum.filterMap
          (fun ic => if areaOK min_roi max_roi ic.2 then
            some (mkRoi (ic.1 + 1) ic.2) else none)).map dropID =
      ((components (bnd H W (maskOfImg (imRoisImg m H W min_roi max_roi)))
        (allPos H W)).filter (areaOK min_roi max_roi)).map
          (fun c => dropID (mkRoi 1 c)) :=
    enumFrom_filterMap_dropID min_roi max_roi _ 0
  have h2 : ((components (bnd H W m) (allPos H W)).enum.filterMap
          (fun ic => if areaOK min_roi max_roi ic.2 then
            some (mkRoi (ic.1 + 1) ic.2) else none)).map dropID =
      ((components (bnd H W m) (allPos H W)).filter (areaOK min_roi max_roi)).map
          (fun c => dropID (mkRoi 1 c)) :=
    enumFrom_filterMap_dropID min_roi max_roi _ 0
  have hall : (components (bnd H W (maskOfImg (imRoisImg m H W min_roi max_roi)))
        (allPos H W)).filter (areaOK min_roi max_roi) =
      components (bnd H W (maskOfImg (imRoisImg m H W min_roi max_roi)))
        (allPos H W) := by
    refine List.filter_eq_self.mpr ?_
    intro c hc
    rw [components_fg2_eq] at hc
    exact (List.mem_filter.mp hc).2
  rw [h1, h2, hall, components_fg2_eq]

/-- C8 counterexample: on `[[1,0,0,1],[0,0,0,1]]` with area bounds `[2, 8]`
only the 2-pixel component (label 2) survives; re-running `select_rois` on
the 0/1 mask of `im_rois` renumbers it 1, so the tables differ in
`labelID`. -/
theorem c8_counterexample :
    (selectRoisData maskTwoComp 2 4 2 8).map (fun r => r.labelID) = [2] ∧
      (selectRoisData (maskOfImg (imRoisImg maskTwoComp 2 4 2 8)) 2 4 2 8).map
        (fun r => r.labelID) = [1] ∧
      selectRoisData (maskOfImg (imRoisImg maskTwoComp 2 4 2 8)) 2 4 2 8 ≠
        selectRoisData maskTwoComp 2 4 2 8 := by
  refine ⟨by decide, by decide, by decide⟩

/-! ### C4 — rasterize / reselect round trip -/

theorem coversB_iff {r : RoiData} {p : Pos} :
    coversB r p = true ↔
      r.min_y ≤ p.1 ∧ p.1 ≤ r.max_y ∧ r.min_x ≤ p.2 ∧ p.2 ≤ r.max_x := by
  simp [coversB]

theorem sepRoi_symm : Symmetric sepRoi := by
  intro a b h
  unfold sepRoi at h ⊢
  tauto

theorem no_adj_across {r r' : RoiData} (hsep : sepRoi r r') {p q : Pos}
    (hp : coversB r p = true) (hq : coversB r' q = true)
    (hadj : adjB p q = true) : False := by
  rw [coversB_iff] at hp hq
  obtain ⟨_, h1, h2, h3, h4⟩ := adjB_iff.mp hadj
  rcases hsep with h | h | h | h <;> omega

/-- The painted canvas is nonzero exactly on box-covered pixels. -/
theorem c4fg_iff {H W : ℕ} {rows : List RoiData}
    (hin : ∀ r ∈ rows,
      r.min_y ≤ r.max_y ∧ r.max_y < H ∧ r.min_x ≤ r.max_x ∧ r.max_x < W)
    {p : Pos} :
    bnd H W (maskOfImg ((roisToImblobs H W zeroCanvas rows).2)) p = true ↔
      ∃ r ∈ rows, coversB r p = true := by
  rw [bnd_iff]
  unfold maskOfImg
  have hval : (roisToImblobs H W zeroCanvas rows).2 p =
      if p.1 < H ∧ p.2 < W ∧ rows.any (fun r => coversB r p) = true then 1
      else zeroCanvas p := foldl_paint_val H W rows zeroCanvas p
  constructor
  · rintro ⟨hb, hnz⟩
    rw [decide_eq_true_iff, hval] at hnz
    by_cases hcond : p.1 < H ∧ p.2 < W ∧ rows.any (fun r => coversB r p) = true
    · obtain ⟨r, hr, hcov⟩ := List.any_eq_true.mp hcond.2.2
      exact ⟨r, hr, hcov⟩
    · rw [if_neg hcond] at hnz
      exact absurd rfl hnz
  · rintro ⟨r, hr, hcov⟩
    have hbox := hin r hr
    have hcov' := coversB_iff.mp hcov
    have hb : p.1 < H ∧ p.2 < W := by
      constructor <;> omega
    refine ⟨hb, ?_⟩
    rw [decide_eq_true_iff, hval,
      if_pos ⟨hb.1, hb.2, List.any_eq_true.mpr ⟨r, hr, hcov⟩⟩]
    exact Nat.one_ne_zero

/-- Reachability through the painted mask never leaves the starting box:
separated boxes have no adjacent pixels. -/
theorem reach_stays_in_box {H W : ℕ} {rows : List RoiData}
    (hin : ∀ r ∈ rows,
      r.min_y ≤ r.max_y ∧ r.max_y < H ∧ r.min_x ≤ r.max_x ∧ r.max_x < W)
    (hsep : rows.Pairwise sepRoi) {r : RoiData} (hr : r ∈ rows) {p q : Pos}
    (hp : coversB r p = true)
    (hreach : Reach (bnd H W (maskOfImg ((roisToImblobs H W zeroCanvas rows).2)))
      p q) :
    coversB r q = true := by
  induction hreach with
  | refl => exact hp
  | @tail s q hps hstep ih =>
    obtain ⟨r', hr', hcov'⟩ := (c4fg_iff hin).mp hstep.2
    by_cases hrr : r' = r
    · exact hrr ▸ hcov'
    · exact (no_adj_across
        (hsep.forall sepRoi_symm hr hr' (fun h => hrr h.symm)) ih hcov'
          hstep.1).elim

theorem stepToward_ne {a b : ℕ} (h : a ≠ b) : stepToward a b ≠ a := by
  unfold stepToward
  split_ifs <;> omega

theorem stepToward_eq_self {a b : ℕ} (h : a = b) : stepToward a b = a := by
  unfold stepToward
  split_ifs <;> omega

theorem stepToward_dist_lt {a b : ℕ} (h : a ≠ b) :
    Nat.dist (stepToward a b) b < Nat.dist a b := by
  unfold stepToward
  split_ifs <;> simp [Nat.dist] <;> omega

theorem stepToward_dist_le (a b : ℕ) :
    Nat.dist (stepToward a b) b ≤ Nat.dist a b := by
  unfold stepToward
  split_ifs <;> simp [Nat.dist] <;> omega

theorem stepToward_bounds {lo hi a b : ℕ} (ha1 : lo ≤ a) (ha2 : a ≤ hi)
    (hb1 : lo ≤ b) (hb2 : b ≤ hi) :
    lo ≤ stepToward a b ∧ stepToward a b ≤ hi := by
  unfold stepToward
  split_ifs <;> omega

theorem stepToward_adj (a b : ℕ) :
    stepToward a b ≤ a + 1 ∧ a ≤ stepToward a b + 1 := by
  unfold stepToward
  split_ifs <;> omega

/-- Any two pixels of a box are connected through the box (8-adjacency):
walk both coordinates towards the target one unit at a time. -/
theorem box_reach {fg : Pos → Bool} {r : RoiData}
    (hcov : ∀ x : Pos, coversB r x = true → fg x = true) :
    ∀ (n : ℕ) (p q : Pos), Nat.dist p.1 q.1 + Nat.dist p.2 q.2 ≤ n →
      coversB r p = true → coversB r q = true → Reach fg p q := by
  intro n
  induction n with
  | zero =>
    intro p q hd hp hq
    have h1 : p.1 = q.1 := Nat.eq_of_dist_eq_zero (by omega)
    have h2 : p.2 = q.2 := Nat.eq_of_dist_eq_zero (by omega)
    have hpq : p = q := Prod.ext h1 h2
    exact hpq ▸ Relation.ReflTransGen.refl
  | succ k ih =>
    intro p q hd hp hq
    by_cases hpq : p = q
    · exact hpq ▸ Relation.ReflTransGen.refl
    · have hp' := coversB_iff.mp hp
      have hq' := coversB_iff.mp hq
      have hcov1 : coversB r (stepToward p.1 q.1, stepToward p.2 q.2) = true := by
        rw [coversB_iff]
        have hy := stepToward_bounds hp'.1 hp'.2.1 hq'.1 hq'.2.1
        have hx := stepToward_bounds hp'.2.2.1 hp'.2.2.2 hq'.2.2.1 hq'.2.2.2
        exact ⟨hy.1, hy.2, hx.1, hx.2⟩
      have hne : p ≠ (stepToward p.1 q.1, stepToward p.2 q.2) := by
        intro heq
        by_cases hc1 : p.1 = q.1
        · have hc2 : p.2 ≠ q.2 := by
            intro hc2
            exact hpq (Prod.ext hc1 hc2)
          have := stepToward_ne hc2
          have hsnd := congrArg Prod.snd heq
          simp at hsnd
          exact this hsnd.symm
        · have := stepToward_ne hc1
          have hfst := congrArg Prod.fst heq
          simp at hfst
          exact this hfst.symm
      have hadj : adjB p (stepToward p.1 q.1, stepToward p.2 q.2) = true := by
        rw [adjB_iff]
        have hy := stepToward_adj p.1 q.1
        have hx := stepToward_adj p.2 q.2
        exact ⟨hne, hy.2, hy.1, hx.2, hx.1⟩
      have hmeas : Nat.dist (stepToward p.1 q.1) q.1 +
          Nat.dist (stepToward p.2 q.2) q.2 ≤ k := by
        by_cases hc1 : p.1 = q.1
        · have hc2 : p.2 ≠ q.2 := by
            intro hc2
            exact hpq (Prod.ext hc1 hc2)
          have hlt := stepToward_dist_lt hc2
          have hle := stepToward_dist_le p.1 q.1
          omega
        · have hlt := stepToward_dist_lt hc1
          have hle := stepToward_dist_le p.2 q.2
          omega
      exact Relation.ReflTransGen.head ⟨hadj, hcov _ hcov1⟩
        (ih (stepToward p.1 q.1, stepToward p.2 q.2) q hmeas hcov1 hq)

/-- The component of any pixel of a (separated, in-bounds) box is exactly
the box's pixel set. -/
theorem compL_eq_boxPixels {H W : ℕ} {rows : List RoiData}
    (hin : ∀ r ∈ rows,
      r.min_y ≤ r.max_y ∧ r.max_y < H ∧ r.min_x ≤ r.max_x ∧ r.max_x < W)
    (hsep : rows.Pairwise sepRoi) {r : RoiData} (hr : r ∈ rows) {p : Pos}
    (hp : coversB r p = true) :
    compL (bnd H W (maskOfImg ((roisToImblobs H W zeroCanvas rows).2)))
        (allPos H W) p = boxPixels H W r := by
  have hdomP : ∀ x,
      bnd H W (maskOfImg ((roisToImblobs H W zeroCanvas rows).2)) x = true →
        x ∈ allPos H W := fun x hx => bnd_mem_allPos hx
  have hd := nodup_allPos H W
  unfold compL boxPixels
  refine List.filter_congr ?_
  intro q _
  refine Bool.coe_iff_coe.mp ?_
  rw [decide_eq_true_iff, mem_compO_iff hdomP hd]
  constructor
  · intro hreach
    exact reach_stays_in_box hin hsep hr hp hreach
  · intro hcovq
    exact box_reach (fun x hx => (c4fg_iff hin).mpr ⟨r, hr, hx⟩)
      (Nat.dist p.1 q.1 + Nat.dist p.2 q.2) p q le_rfl hp hcovq

/-- The recorded bounding box of a box's pixel list is the box itself. -/
theorem bbox_of_boxPixels {H W : ℕ} {r : RoiData}
    (hbox : r.min_y ≤ r.max_y ∧ r.max_y < H ∧ r.min_x ≤ r.max_x ∧ r.max_x < W)
    (k : ℕ) :
    bboxOf (mkRoi k (boxPixels H W r)) = bboxOf r := by
  obtain ⟨h1, h2, h3, h4⟩ := hbox
  have hmem : ∀ {y x : ℕ}, r.min_y ≤ y → y ≤ r.max_y → r.min_x ≤ x →
      x ≤ r.max_x → ((y, x) : Pos) ∈ boxPixels H W r := by
    intro y x hy1 hy2 hx1 hx2
    unfold boxPixels
    rw [List.mem_filter]
    exact ⟨mem_allPos.mpr ⟨by omega, by omega⟩,
      coversB_iff.mpr ⟨hy1, hy2, hx1, hx2⟩⟩
  have hboundy : ∀ y ∈ (boxPixels H W r).map Prod.fst,
      r.min_y ≤ y ∧ y ≤ r.max_y := by
    intro y hy
    obtain ⟨q, hq, rfl⟩ := List.mem_map.mp hy
    have := coversB_iff.mp (List.mem_filter.mp hq).2
    exact ⟨this.1, this.2.1⟩
  have hboundx : ∀ x ∈ (boxPixels H W r).map Prod.snd,
      r.min_x ≤ x ∧ x ≤ r.max_x := by
    intro x hx
    obtain ⟨q, hq, rfl⟩ := List.mem_map.mp hx
    have := coversB_iff.mp (List.mem_filter.mp hq).2
    exact ⟨this.2.2.1, this.2.2.2⟩
  have hminy : listMin ((boxPixels H W r).map Prod.fst) = r.min_y :=
    listMin_eq_of
      (List.mem_map_of_mem Prod.fst (hmem le_rfl h1 le_rfl h3))
      (fun y hy => (hboundy y hy).1)
  have hmaxy : listMax ((boxPixels H W r).map Prod.fst) = r.max_y :=
    listMax_eq_of
      (List.mem_map_of_mem Prod.fst (hmem h1 le_rfl le_rfl h3))
      (fun y hy => (hboundy y hy).2)
  have hminx : listMin ((boxPixels H W r).map Prod.snd) = r.min_x :=
    listMin_eq_of
      (List.mem_map_of_mem Prod.snd (hmem le_rfl h1 le_rfl h3))
      (fun x hx => (hboundx x hx).1)
  have hmaxx : listMax ((boxPixels H W r).map Prod.snd) = r.max_x :=
    listMax_eq_of
      (List.mem_map_of_mem Prod.snd (hmem le_rfl h1 h3 le_rfl))
      (fun x hx => (hboundx x hx).2)
  unfold bboxOf mkRoi
  simp only [Nat.add_sub_cancel, hminy, hmaxy, hminx, hmaxx]

/-- Equal recorded bounding boxes mean equal bound fields. -/
theorem bbox_fields_eq {r r' : RoiData} (h : bboxOf r = bboxOf r') :
    r.min_y = r'.min_y ∧ r.min_x = r'.min_x ∧
      r.max_y = r'.max_y ∧ r.max_x = r'.max_x := by
  unfold bboxOf at h
  have h1 := congrArg (fun t : ℕ × ℕ × ℕ × ℕ => t.1) h
  have h2 := congrArg (fun t : ℕ × ℕ × ℕ × ℕ => t.2.1) h
  have h3 := congrArg (fun t : ℕ × ℕ × ℕ × ℕ => t.2.2.1) h
  have h4 := congrArg (fun t : ℕ × ℕ × ℕ × ℕ => t.2.2.2) h
  exact ⟨h1, h2, h3, h4⟩

/-- A box's pixel set is determined by its four bounds. -/
theorem boxPixels_eq_of_bbox {H W : ℕ} {r r' : RoiData}
    (h : bboxOf r = bboxOf r') : boxPixels H W r = boxPixels H W r' := by
  obtain ⟨e1, e2, e3, e4⟩ := bbox_fields_eq h
  unfold boxPixels
  refine List.filter_congr ?_
  intro p _
  unfold coversB
  rw [e1, e2, e3, e4]

/-- Every component of the painted mask is some row's box, and conversely. -/
theorem components_painted_iff {H W : ℕ} {rows : List RoiData}
    (hin : ∀ r ∈ rows,
      r.min_y ≤ r.max_y ∧ r.max_y < H ∧ r.min_x ≤ r.max_x ∧ r.max_x < W)
    (hsep : rows.Pairwise sepRoi) {c : List Pos} :
    c ∈ components (bnd H W (maskOfImg ((roisToImblobs H W zeroCanvas rows).2)))
        (allPos H W) ↔
      ∃ r ∈ rows, c = boxPixels H W r := by
  have hdomP : ∀ x,
      bnd H W (maskOfImg ((roisToImblobs H W zeroCanvas rows).2)) x = true →
        x ∈ allPos H W := fun x hx => bnd_mem_allPos hx
  have hd := nodup_allPos H W
  constructor
  · intro hc
    obtain ⟨p, _, hroot, rfl⟩ := mem_components_iff.mp hc
    have hfgp := (isRoot_iff.mp hroot).1
    obtain ⟨r, hr, hcov⟩ := (c4fg_iff hin).mp hfgp
    exact ⟨r, hr, compL_eq_boxPixels hin hsep hr hcov⟩
  · rintro ⟨r, hr, rfl⟩
    have hbox := hin r hr
    have hcorner : coversB r (r.min_y, r.min_x) = true :=
      coversB_iff.mpr ⟨le_rfl, hbox.1, le_rfl, hbox.2.2.1⟩
    have hfgc : bnd H W (maskOfImg ((roisToImblobs H W zeroCanvas rows).2))
        (r.min_y, r.min_x) = true := (c4fg_iff hin).mpr ⟨r, hr, hcorner⟩
    obtain ⟨c, hcmem, hpc⟩ := exists_mem_components hdomP hd hfgc
    have hceq : c = compL (bnd H W (maskOfImg ((roisToImblobs H W zeroCanvas rows).2)))
        (allPos H W) (r.min_y, r.min_x) := comp_eq_compL hdomP hd hcmem hpc
    rw [hceq, compL_eq_boxPixels hin hsep hr hcorner] at hcmem
    exact hcmem

/-- Rows of the enumeration-filterMap, projected to bounding boxes. -/
theorem enumFrom_filterMap_bboxOf (min_roi max_roi : ℕ) :
    ∀ (L : List (List Pos)) (n : ℕ),
      ((L.enumFrom n).filterMap
          (fun ic => if areaOK min_roi max_roi ic.2 then
            some (mkRoi (ic.1 + 1) ic.2) else none)).map bboxOf =
        (L.filter (areaOK min_roi max_roi)).map (fun c => bboxOf (mkRoi 1 c)) := by
  intro L
  induction L with
  | nil => intro n; rfl
  | cons c t ih =>
    intro n
    rw [List.enumFrom_cons, List.filterMap_cons]
    by_cases hok : areaOK min_roi max_roi c = true
    · rw [if_pos hok, List.map_cons, ih (n + 1), List.filter_cons_of_pos hok,
        List.map_cons]
      rfl
    · rw [if_neg hok, ih (n + 1), List.filter_cons_of_neg hok]

/-- C4 (amended): painting a RegionTable of pairwise non-adjacent,
non-overlapping in-canvas boxes and re-running `select_rois` with
`min_roi = 1` recovers exactly the original bounding boxes (as a
permutation: the second labeling pass lists regions in raster order of
their top-left corners, which may differ from the input row order). -/
theorem c4_round_trip (H W : ℕ) (rows : List RoiData)
    (hin : ∀ r ∈ rows,
      r.min_y ≤ r.max_y ∧ r.max_y < H ∧ r.min_x ≤ r.max_x ∧ r.max_x < W)
    (hsep : rows.Pairwise sepRoi) :
    ((selectRoisData (maskOfImg ((roisToImblobs H W zeroCanvas rows).2))
        H W 1 (H * W)).map bboxOf).Perm (rows.map bboxOf) := by
  have hdomP : ∀ x,
      bnd H W (maskOfImg ((roisToImblobs H W zeroCanvas rows).2)) x = true →
        x ∈ allPos H W := fun x hx => bnd_mem_allPos hx
  have hd := nodup_allPos H W
  have hall : ∀ c ∈ components
      (bnd H W (maskOfImg ((roisToImblobs H W zeroCanvas rows).2)))
        (allPos H W), areaOK 1 (H * W) c = true := by
    intro c hc
    have hne : c ≠ [] := components_ne_nil hc
    have hlen1 : 1 ≤ c.length := List.length_pos.mpr hne
    have hnodup : c.Nodup := by
      obtain ⟨p, _, _, rfl⟩ := mem_components_iff.mp hc
      exact nodup_compL _ hd p
    have hsub : c ⊆ allPos H W := components_subset_dom hc
    have hlen2 : c.length ≤ H * W := by
      have := (List.subperm_of_subset hnodup hsub).length_le
      rwa [length_allPos] at this
    unfold areaOK
    rw [Bool.and_eq_true, decide_eq_true_iff, decide_eq_true_iff]
    exact ⟨hlen1, hlen2⟩
  have htable : (selectRoisData (maskOfImg ((roisToImblobs H W zeroCanvas rows).2))
      H W 1 (H * W)).map bboxOf =
      (components (bnd H W (maskOfImg ((roisToImblobs H W zeroCanvas rows).2)))
        (allPos H W)).map (fun c => bboxOf (mkRoi 1 c)) := by
    unfold selectRoisData
    have h1 : ((components (bnd H W (maskOfImg
          ((roisToImblobs H W zeroCanvas rows).2))) (allPos H W)).enum.filterMap
            (fun ic => if areaOK 1 (H * W) ic.2 then
              some (mkRoi (ic.1 + 1) ic.2) else none)).map bboxOf =
        ((components (bnd H W (maskOfImg ((roisToImblobs H W zeroCanvas rows).2)))
          (allPos H W)).filter (areaOK 1 (H * W))).map (fun c => bboxOf (mkRoi 1 c)) :=
      enumFrom_filterMap_bboxOf 1 (H * W) _ 0
    rw [h1, List.filter_eq_self.mpr hall]
  rw [htable]
  have hnodupL : ((components (bnd H W (maskOfImg
      ((roisToImblobs H W zeroCanvas rows).2))) (allPos H W)).map
        (fun c => bboxOf (mkRoi 1 c))).Nodup := by
    refine (nodup_components hd).map_on ?_
    intro c1 hc1 c2 hc2 heq
    obtain ⟨r1, hr1, rfl⟩ := (components_painted_iff hin hsep).mp hc1
    obtain ⟨r2, hr2, rfl⟩ := (components_painted_iff hin hsep).mp hc2
    rw [bbox_of_boxPixels (hin r1 hr1), bbox_of_boxPixels (hin r2 hr2)] at heq
    exact boxPixels_eq_of_bbox heq
  have hnodupR : (rows.map bboxOf).Nodup := by
    unfold List.Nodup
    rw [List.pairwise_map]
    refine hsep.imp_of_mem ?_
    intro a b ha hb hab heq
    obtain ⟨e1, e2, e3, e4⟩ := bbox_fields_eq heq
    have hba := hin a ha
    have hbb := hin b hb
    unfold sepRoi at hab
    omega
  have hmem : ∀ b,
      b ∈ (components (bnd H W (maskOfImg
        ((roisToImblobs H W zeroCanvas rows).2))) (allPos H W)).map
          (fun c => bboxOf (mkRoi 1 c)) ↔
        b ∈ rows.map bboxOf := by
    intro b
    rw [List.mem_map, List.mem_map]
    constructor
    · rintro ⟨c, hc, rfl⟩
      obtain ⟨r, hr, rfl⟩ := (components_painted_iff hin hsep).mp hc
      exact ⟨r, hr, (bbox_of_boxPixels (hin r hr) 1).symm⟩
    · rintro ⟨r, hr, rfl⟩
      exact ⟨boxPixels H W r,
        (components_painted_iff hin hsep).mpr ⟨r, hr, rfl⟩,
        bbox_of_boxPixels (hin r hr) 1⟩
  exact (List.perm_ext_iff_of_nodup hnodupL hnodupR).mpr hmem

/-- C4 counterexample: two diagonally adjacent 1×1 boxes on a 2×2 canvas
merge into a single 8-connected component after painting, so re-selection
returns one bounding box `(0,0,1,1)` instead of the two originals. -/
theorem c4_counterexample :
    (selectRoisData (maskOfImg ((roisToImblobs 2 2 zeroCanvas rowsDiag).2))
        2 2 1 4).map bboxOf = [(0, 0, 1, 1)] ∧
      rowsDiag.map bboxOf = [(0, 0, 0, 0), (1, 1, 1, 1)] ∧
      (selectRoisData (maskOfImg ((roisToImblobs 2 2 zeroCanvas rowsDiag).2))
        2 2 1 4).map bboxOf ≠ rowsDiag.map bboxOf := by
  refine ⟨by decide, by decide, by decide⟩

/-- C4 witness: the amended round trip at a single unit box on a 1×1 canvas. -/
theorem c4_witness :
    (∀ r ∈ rowsUnit,
      r.min_y ≤ r.max_y ∧ r.max_y < 1 ∧ r.min_x ≤ r.max_x ∧ r.max_x < 1) ∧
      rowsUnit.Pairwise sepRoi ∧
      ((selectRoisData (maskOfImg ((roisToImblobs 1 1 zeroCanvas rowsUnit).2))
          1 1 1 (1 * 1)).map bboxOf).Perm (rowsUnit.map bboxOf) :=
  ⟨by decide, List.pairwise_singleton sepRoi _,
    c4_round_trip 1 1 rowsUnit (by decide) (List.pairwise_singleton sepRoi _)⟩

/-- C1 witness: the amended statement at `[[1]]` with
`high = 1/2, low = 0`. -/
theorem c1_witness :
    (∀ p ∈ [((0 : ℕ), (0 : ℕ))],
        (doubleThresholdAbs imOne11 (1 / 2) 0 p = true ↔
          (0 : ℚ) < compMean imOne11 (1 / 2) [((0 : ℕ), (0 : ℕ))])) ∧
      ((0 : ℚ) ≤ 1 / 2 →
        ((0 : ℚ) < compMean imOne11 (1 / 2) [((0 : ℕ), (0 : ℕ))] ↔
          ∃ q ∈ [((0 : ℕ), (0 : ℕ))], (1 / 2 : ℚ) < imOne11.val q)) :=
  c1_component_kept_iff imOne11 (1 / 2) 0 [((0 : ℕ), (0 : ℕ))]
    (by with_unfolding_all decide)

end Maad

